import Mathlib

/-!
Shallow embedding of the quantitative signal engine of the
crypto-trading-python-bot repository (files `common/utils.py` and
`common/signal_generation.py`), together with theorems settling the
specification claims about it.

Conventions of the embedding:
* Python floats are modelled as ℚ; a missing value (`NaN`/`None` in a pandas
  cell) is modelled as `Option ℚ` with `none` for missing.  Comparisons with a
  missing value are `False`, exactly as IEEE comparisons with `NaN`.
* Fallible code returns `Except PyErr`; the constructors name the Python
  exception that the corresponding unguarded operation raises.
* Lists model pandas columns / Python lists in order.
-/

/-- Python runtime errors that the embedded code can raise.  `invalidInput`
models the deliberate, descriptive input-validation error family that the
specification's error taxonomy postulates; the source never raises it. -/
inductive PyErr where
  | indexError
  | nameError
  | zeroDivisionError
  | invalidInput
deriving DecidableEq, Repr

/-- A depth-curve point `(price, cumulative_volume)` as used by
`common/utils.py` (`depth` entries are two-element lists `[price, volume]`). -/
abbrev Point : Type := ℚ × ℚ

/-- Side string dispatch of `discretize` (utils.py lines 211-216): `ask`/`sell`
prefixes mean increasing prices, exactly `bid`/`buy` mean decreasing prices,
anything else leaves the Python variable `price_increase` unbound, which
surfaces later as a `NameError`. -/
def priceIncreaseOf (side : String) : Option Bool :=
  if side.startsWith ("ask") || side.startsWith ("sell") then some true
  else if side == "bid" || side == "buy" then some false
  else none

/-- Indices of the depth points falling inside the current bin
(utils.py lines 233-236): half-open on the far end of the bin in the direction
of travel. -/
def binPointIds (priceInc : Bool) (depth : List Point) (binStart binEnd : ℚ) :
    List ℕ :=
  if priceInc then
    (List.range depth.length).filter
      (fun i => decide (binStart ≤ (depth.getD i (0, 0)).1 ∧
        (depth.getD i (0, 0)).1 < binEnd))
  else
    (List.range depth.length).filter
      (fun i => decide (binEnd < (depth.getD i (0, 0)).1 ∧
        (depth.getD i (0, 0)).1 ≤ binStart))

/-- Inner loop of `discretize` over the points of one bin
(utils.py lines 266-278).  State is `(prev_price, prev_volume, bin_volume)`;
the first argument is the current point id, the second the number of points
still to process. -/
def binInner (depth : List Point) (s : ℚ) :
    ℕ → ℕ → ℚ × ℚ × ℚ → ℚ × ℚ × ℚ
  | _, 0, st => st
  | i, k + 1, (pp, pv, a) =>
      let p := depth.getD i (0, 0)
      binInner depth s (i + 1) k (p.1, p.2, a + pv * (|p.1 - pp| / s))

/-- One iteration of the bin loop of `discretize` (utils.py lines 228-289) for
bin index `b`.  `st` is the value of the Python variable `prev_point` carried
over from earlier iterations (`none` when it has never been assigned, in which
case reading it in the empty-bin branch raises `NameError`). -/
def binStep (priceInc : Bool) (depth : List Point) (s start : ℚ)
    (st : Option Point) (b : ℕ) : Except PyErr (ℚ × Option Point) :=
  let binStart := if priceInc then start + b * s else start - b * s
  let binEnd := if priceInc then binStart + s else binStart - s
  let ids := binPointIds priceInc depth binStart binEnd
  match ids.min?, ids.max? with
  | some first, some last =>
      let prevPoint : Option Point :=
        if 1 ≤ first then some (depth.getD (first - 1) (0, 0)) else none
      let prevVolume : ℚ := match prevPoint with | some p => p.2 | none => 0
      let res := binInner depth s first (last + 1 - first) (binStart, prevVolume, 0)
      let binVolume := res.2.2 + res.2.1 * (|binEnd - res.1| / s)
      .ok (binVolume, some (depth.getD last (0, 0)))
  | _, _ =>
      match st with
      | none => .error .nameError
      | some pp => .ok (pp.2 * (|binEnd - binStart| / s), st)

/-- The bin loop of `discretize`: process `k` bins starting at bin index `b`,
collecting the bin volumes in order. -/
def binLoop (priceInc : Bool) (depth : List Point) (s start : ℚ) :
    ℕ → ℕ → Option Point → Except PyErr (List ℚ × Option Point)
  | _, 0, st => .ok ([], st)
  | b, k + 1, st =>
      match binStep priceInc depth s start st b with
      | .error e => .error e
      | .ok (vol, st') =>
          match binLoop priceInc depth s start (b + 1) k st' with
          | .error e => .error e
          | .ok (vols, st'') => .ok (vol :: vols, st'')

/-- Bin count of `discretize` (utils.py line 223):
`int(abs(depth[-1][0] - start) // bin_size) + 1`, as a natural number (a
non-positive Python value makes the `range` empty, i.e. count `0`). -/
def binCount (depth : List Point) (s start : ℚ) : ℕ :=
  (⌊|(depth.getLastD (0, 0)).1 - start| / s⌋ + 1).toNat

/-- `discretize` of `common/utils.py` (lines 196-291).  Re-grids one side of a
cumulative-volume depth curve into uniform price bins.  Python exceptions are
surfaced as `Except.error`: an empty `depth` raises `IndexError` at
`depth[0]`/`depth[-1]`, a zero `bin_size` raises `ZeroDivisionError` at the
floor division, an unrecognised `side` raises `NameError` at the first read of
`price_increase`, and an empty bin before any point has been seen reads the
never-assigned `prev_point`, again a `NameError`. -/
def discretize (side : String) (depth : List Point) (bin_size : ℚ)
    (start? : Option ℚ) : Except PyErr (List ℚ) :=
  match depth with
  | [] => .error .indexError
  | p0 :: _ =>
      let start := start?.getD p0.1
      if bin_size = 0 then .error .zeroDivisionError
      else
        match priceIncreaseOf side with
        | none => .error .nameError
        | some priceInc =>
            match binLoop priceInc depth bin_size start 0
                (binCount depth bin_size start) none with
            | .error e => .error e
            | .ok (vols, _) => .ok vols

/-- The far end of the price span covered by the bins of `discretize`
(utils.py lines 223-225): `start ± bin_count * bin_size` in the direction of
travel, with `start` defaulted to the first point's price. -/
def coveredSpanEnd (side : String) (depth : List Point) (s : ℚ) : ℚ :=
  let start := (depth.headD (0, 0)).1
  if priceIncreaseOf side = some true then start + binCount depth s start * s
  else start - binCount depth s start * s

/-- The total accumulated volume of the input step function over the covered
price span, measured per bin width.  This is the specification's
area-preservation quantity (spec §4.1): the curve is the right-continuous step
function that is constant between consecutive points at the previous point's
cumulative volume and keeps the last point's volume up to the end of the span,
and every sub-interval of width `w` on which the step function has value `v`
contributes `v * (w / bin_size)`. -/
def totalAccumulatedVolume (depth : List Point) (s endP : ℚ) : ℚ :=
  ((∑ i ∈ Finset.range (depth.length - 1),
      (depth.getD i (0, 0)).2 *
        |(depth.getD (i + 1) (0, 0)).1 - (depth.getD i (0, 0)).1|)
    + (depth.getLastD (0, 0)).2 * |endP - (depth.getLastD (0, 0)).1|) / s

/-! ## signal_generation.py: scalar float / missing-value semantics -/

/-- Float subtraction with NaN propagation: missing when either operand is
missing. -/
def pySub (x y : Option ℚ) : Option ℚ :=
  match x, y with
  | some a, some b => some (a - b)
  | _, _ => none

/-- `x > c` on a possibly-missing float: comparisons with NaN are `False`. -/
def pyGt (x : Option ℚ) (c : ℚ) : Bool :=
  match x with
  | some a => decide (c < a)
  | none => false

/-- `x >= c` on a possibly-missing float: comparisons with NaN are `False`. -/
def pyGe (x : Option ℚ) (c : ℚ) : Bool :=
  match x with
  | some a => decide (c ≤ a)
  | none => false

/-- Negation of a possibly-missing float (`-NaN` is `NaN`). -/
def optNeg (x : Option ℚ) : Option ℚ := x.map (fun a => -a)

/-- Row-wise mean over the listed score columns ignoring missing values
(`df[score_columns].mean(skipna=True, axis=1)`, signal_generation.py line 45):
missing only when every input in the row is missing. -/
def optMean (xs : List (Option ℚ)) : Option ℚ :=
  let present := xs.filterMap id
  if present.isEmpty then none else some (present.sum / present.length)

/-- The non-missing values among the last `min(i+1, w)` entries ending at
position `i` — the populated part of the rolling window at `i`. -/
def windowVals (xs : List (Option ℚ)) (w i : ℕ) : List ℚ :=
  ((xs.take (i + 1)).drop (i + 1 - w)).filterMap id

/-- Number of non-missing values in the rolling window at position `i`. -/
def presentInWindow (xs : List (Option ℚ)) (w i : ℕ) : ℕ :=
  (windowVals xs w i).length

/-- `series.rolling(w, min_periods=m).mean()`
(signal_generation.py line 57): at each position the mean of the non-missing
values in the trailing window of size `w`, or missing when fewer than
`max m 1` of them are non-missing (a window with zero observations has no
mean even when `min_periods` is `0`). -/
def rollingMean (xs : List (Option ℚ)) (w m : ℕ) : List (Option ℚ) :=
  (List.range xs.length).map (fun i =>
    if m ≤ (windowVals xs w i).length ∧ windowVals xs w i ≠ [] then
      some ((windowVals xs w i).sum / (windowVals xs w i).length)
    else none)

/-- `score_column >= point_threshold` applied to one cell
(signal_generation.py line 51): a missing score compares `False`, and the
boolean result reads back as `1.0` / `0.0`. -/
def binarizeVal (t : ℚ) (x : Option ℚ) : ℚ :=
  match x with
  | some v => if t ≤ v then 1 else 0
  | none => 0

/-- `aggregate_scores` of signal_generation.py (lines 21-63), restricted to the
integer-window (simple moving average) smoothing path; the float-window
exponential path is not modelled.  `rows` holds, per timestamp, the cells of
the selected score columns.  Note the Python truthiness test
`if point_threshold:` on line 50: a threshold of `0.0` (or `None`) skips the
binarize step.  The moving average uses `min_periods=window // 2`
(line 57). -/
def aggregate_scores (rows : List (List (Option ℚ))) (point_threshold : Option ℚ)
    (window : Option ℕ) : List (Option ℚ) :=
  let score_column := rows.map optMean
  let score_column :=
    match point_threshold with
    | some t => if t = 0 then score_column
        else score_column.map (fun x => some (binarizeVal t x))
    | none => score_column
  match window with
  | some w => rollingMean score_column w (w / 2)
  | none => score_column

/-- `combine_scores_relative` of signal_generation.py (lines 77-100): the
ratio score `(buy / (buy + sell)) * 2 - 1` and its negation.  Where
`buy + sell = 0` the division is `0.0 / 0.0` on the non-negative scores the
caller supplies, i.e. NaN, modelled as missing. -/
def combine_scores_relative (buyCol sellCol : List (Option ℚ)) :
    List (Option ℚ) × List (Option ℚ) :=
  let buy_sell_score := List.zipWith (fun b s =>
    match b, s with
    | some bv, some sv =>
        if bv + sv = 0 then none else some (bv / (bv + sv) * 2 - 1)
    | _, _ => none) buyCol sellCol
  (buy_sell_score, buy_sell_score.map optNeg)

/-- `combine_scores_difference` of signal_generation.py (lines 103-118): the
difference score `buy - sell` and its negation. -/
def combine_scores_difference (buyCol sellCol : List (Option ℚ)) :
    List (Option ℚ) × List (Option ℚ) :=
  let buy_minus_sell := List.zipWith pySub buyCol sellCol
  (buy_minus_sell, buy_minus_sell.map optNeg)

/-- `apply_rule_with_score_thresholds` of signal_generation.py (lines 121-132):
the batch signal rule, row-wise over the two score columns, producing the pair
`(buy_signal, sell_signal)` per row:
`buy_signal = (buy - sell > 0.0) & (buy >= buy_signal_threshold)` and
symmetrically for `sell_signal`. -/
def apply_rule_with_score_thresholds (buyCol sellCol : List (Option ℚ))
    (buyThreshold sellThreshold : ℚ) : List (Bool × Bool) :=
  List.zipWith (fun b s =>
    ((pyGt (pySub b s) 0).and (pyGe b buyThreshold),
     (pyGt (pySub s b) 0).and (pyGe s sellThreshold))) buyCol sellCol

/-- `apply_rule_with_score_thresholds_one_row` of signal_generation.py
(lines 135-151): the same rule evaluated on a single row with Python scalar
operations. -/
def apply_rule_with_score_thresholds_one_row (buy_score sell_score : Option ℚ)
    (buyThreshold sellThreshold : ℚ) : Bool × Bool :=
  ((pyGt (pySub buy_score sell_score) 0).and (pyGe buy_score buyThreshold),
   (pyGt (pySub sell_score buy_score) 0).and (pyGe sell_score sellThreshold))

/-! ## Backtest simulator -/

/-- A recorded trade of `simulated_trade_performance`:
`(index, is_buy_mode, price, profit, profit_percent)`. -/
abbrev Trade : Type := ℕ × Bool × ℚ × ℚ × ℚ

/-- The cross-row state of `simulated_trade_performance`
(signal_generation.py lines 214-226). -/
structure SimState where
  is_buy_mode : Bool
  long_profit : ℚ
  long_profit_percent : ℚ
  long_transactions : ℕ
  long_profitable : ℕ
  longs : List Trade
  short_profit : ℚ
  short_profit_percent : ℚ
  short_transactions : ℕ
  short_profitable : ℕ
  shorts : List Trade
deriving DecidableEq, Repr

/-- The initial state of the simulation. -/
def simInit : SimState :=
  ⟨true, 0, 0, 0, 0, [], 0, 0, 0, 0, []⟩

/-- One row of the simulation loop of `simulated_trade_performance`
(signal_generation.py lines 230-258).  A row whose price is missing or falsy
(`not price or pd.isnull(price)`, line 231) is skipped without any state
change.  Otherwise, in buy mode a buy signal closes the pending short against
the last recorded short price and records a long-open trade; in sell mode a
sell signal closes the pending long against the last recorded long price and
records a short-open trade. -/
def simStep (st : SimState) (idx : ℕ) (sell_signal buy_signal : Bool)
    (price : Option ℚ) : SimState :=
  match price with
  | none => st
  | some p =>
      if p = 0 then st
      else if st.is_buy_mode then
        if buy_signal then
          let previous_price : ℚ :=
            match st.shorts.getLast? with
            | some t => t.2.2.1
            | none => 0
          let profit := if 0 < previous_price then previous_price - p else 0
          let profit_percent :=
            if 0 < previous_price then 100 * profit / previous_price else 0
          { st with
            short_profit := st.short_profit + profit
            short_profit_percent := st.short_profit_percent + profit_percent
            short_transactions := st.short_transactions + 1
            short_profitable :=
              st.short_profitable + (if 0 < profit then 1 else 0)
            longs := st.longs ++ [(idx, st.is_buy_mode, p, profit, profit_percent)]
            is_buy_mode := false }
        else st
      else
        if sell_signal then
          let previous_price : ℚ :=
            match st.longs.getLast? with
            | some t => t.2.2.1
            | none => 0
          let profit := if 0 < previous_price then p - previous_price else 0
          let profit_percent :=
            if 0 < previous_price then 100 * profit / previous_price else 0
          { st with
            long_profit := st.long_profit + profit
            long_profit_percent := st.long_profit_percent + profit_percent
            long_transactions := st.long_transactions + 1
            long_profitable :=
              st.long_profitable + (if 0 < profit then 1 else 0)
            shorts := st.shorts ++ [(idx, st.is_buy_mode, p, profit, profit_percent)]
            is_buy_mode := true }
        else st

/-- The full simulation loop of `simulated_trade_performance` over the rows
`(sell_signal, buy_signal, price)` in order, with `itertuples` row indices
starting at `idx`. -/
def simRun (idx : ℕ) (st : SimState) :
    List (Bool × Bool × Option ℚ) → SimState
  | [] => st
  | (s, b, p) :: rest => simRun (idx + 1) (simStep st idx s b p) rest

/-! ## Interval precision evaluator -/

/-- `df[label_column].diff()` with the first entry overwritten by `False` and
the column cast to int (signal_generation.py lines 338-340).  On a bool-dtype
column pandas (since 1.0) computes `diff` with `operator.xor`, so entry `i`
is `labels[i] XOR labels[i-1]`; after `astype(int)` that is `1` at a label
change and `0` otherwise (never `-1`).  The overwritten first entry is `0`.
(The `iloc[0]` assignment presupposes a non-empty column, as the claim does.) -/
def labelDiff (labels : List Bool) : List ℤ :=
  match labels with
  | [] => []
  | l0 :: rest =>
      0 :: List.zipWith
        (fun prev cur => if prev == cur then (0 : ℤ) else 1)
        (l0 :: rest) rest

/-- Running cumulative sum continuing from accumulator `acc`. -/
def cumsumFrom (acc : ℤ) : List ℤ → List ℤ
  | [] => []
  | x :: xs => (acc + x) :: cumsumFrom (acc + x) xs

/-- Running cumulative sum (`Series.cumsum`). -/
def cumsum (xs : List ℤ) : List ℤ :=
  cumsumFrom 0 xs

/-- Insert into an ascending-sorted list of keys. -/
def insertSorted (x : ℤ) : List ℤ → List ℤ
  | [] => [x]
  | y :: ys => if x ≤ y then x :: y :: ys else y :: insertSorted x ys

/-- Ascending insertion sort on keys (pandas `groupby` sorts group keys). -/
def sortKeys : List ℤ → List ℤ
  | [] => []
  | x :: xs => insertSorted x (sortKeys xs)

/-- The distinct values of a list in order of first appearance. -/
def dedup' : List ℤ → List ℤ
  | [] => []
  | x :: xs => if x ∈ dedup' xs then dedup' xs else x :: dedup' xs

/-- `find_interval_precision` of signal_generation.py (lines 301-369): assign
each row the cumulative sum of the signed label diff as its `interval_no`,
then group by `interval_no` (keys sorted ascending, as pandas `groupby`
does) and take per group the max label and the max of
`score >= threshold`, returning rows `(interval_no, label, score)` ordered by
group key. -/
def find_interval_precision (labels : List Bool) (scores : List ℚ)
    (threshold : ℚ) : List (ℤ × Bool × Bool) :=
  let ids := cumsum (labelDiff labels)
  let ge := scores.map (fun x => decide (threshold ≤ x))
  let rows := List.zipWith (fun i (ls : Bool × Bool) => (i, ls)) ids
    (List.zipWith (fun l g => (l, g)) labels ge)
  let keys := sortKeys (dedup' ids)
  keys.map (fun k =>
    let grp := rows.filter (fun r => decide (r.1 = k))
    (k, grp.any (fun r => r.2.1), grp.any (fun r => r.2.2)))

/-- The claim's description of the expected output of
`find_interval_precision`, written as a direct linear decomposition of the
label column into maximal runs of identical values: one row per maximal run,
interval ids increasing by one from `id` (the first run counted as no
change), interval label the run's label value, and interval score true iff at
least one point of the run has score `≥ t`.  This definition follows the
specification's words and is compared against the code's groupby pipeline. -/
def intervalRunsSpec (t : ℚ) : ℤ → List Bool → List ℚ → List (ℤ × Bool × Bool)
  | id, l :: ls, x :: xs =>
      (id, l,
        decide (t ≤ x) ||
          (xs.take (ls.takeWhile (fun b => b == l)).length).any
            (fun y => decide (t ≤ y))) ::
        intervalRunsSpec t (id + 1) (ls.dropWhile (fun b => b == l))
          (xs.drop (ls.takeWhile (fun b => b == l)).length)
  | _, _, _ => []
termination_by _ ls _ => ls.length
decreasing_by
  simp only [List.length_cons]
  exact Nat.lt_succ_of_le (List.dropWhile_sublist _).length_le

/-! ## Infrastructure for the area-preservation development -/

/-- Price mirroring: negating every price turns a descending (bid) curve into
an ascending (ask) curve with the same volumes. -/
def negPoint (p : Point) : Point := (-p.1, p.2)

/-- Length of the overlap of the intervals `[a, b]` and `[l, r]`. -/
def clip (a b l r : ℚ) : ℚ := max 0 (min b r - max a l)

/-- The price at which the step function stops taking point `i`'s volume: the
next point's price, or the horizon `M` after the last point. -/
def horizonAt (depth : List Point) (M : ℚ) (i : ℕ) : ℚ :=
  if i + 1 < depth.length then (depth.getD (i + 1) (0, 0)).1 else M

/-- The integral over the price interval `[a, b]` of the right-continuous step
function of the curve (value of point `i` from its price up to the next
point's price, the last value extended to the horizon `M`), written as a sum
of clipped segment contributions. -/
def stepIntegral (depth : List Point) (M a b : ℚ) : ℚ :=
  ∑ i ∈ Finset.range depth.length,
    (depth.getD i (0, 0)).2 *
      clip a b (depth.getD i (0, 0)).1 (horizonAt depth M i)

/-- Loop invariant of the bin loop of `discretize` (ascending prices, start at
the first point's price `q0`): before processing bin `b`, the carried
`prev_point` is unassigned only at `b = 0`, and otherwise holds the last curve
point strictly below the bin's start price. -/
def StateInv (depth : List Point) (q0 s : ℚ) (b : ℕ) (st : Option Point) :
    Prop :=
  (b = 0 ∧ st = none) ∨
  ∃ j, j < depth.length ∧ st = some (depth.getD j (0, 0)) ∧
    (depth.getD j (0, 0)).1 < q0 + b * s ∧
    ∀ i, i < depth.length → (depth.getD i (0, 0)).1 < q0 + b * s → i ≤ j

/-! ## Index helper lemmas -/

theorem zipWith_getD_of_prop {α β γ : Type} (f : α → β → γ) (d : γ)
    (P : γ → Prop) (hd : P d) (hf : ∀ a b, P (f a b)) :
    ∀ (as : List α) (bs : List β) (i : ℕ), P ((List.zipWith f as bs).getD i d) := by
  intro as
  induction as with
  | nil => intro bs i; simpa using hd
  | cons a as ih =>
    intro bs i
    cases bs with
    | nil => simpa using hd
    | cons b bs =>
      cases i with
      | zero => simpa using hf a b
      | succ i => simpa using ih bs i

theorem zipWith_getD_eq {α β γ : Type} (f : α → β → γ) (d : γ) (da : α) (db : β) :
    ∀ (as : List α) (bs : List β) (i : ℕ), i < as.length → i < bs.length →
      (List.zipWith f as bs).getD i d = f (as.getD i da) (bs.getD i db) := by
  intro as
  induction as with
  | nil => intro bs i hi _; simp at hi
  | cons a as ih =>
    intro bs i hi hj
    cases bs with
    | nil => simp at hj
    | cons b bs =>
      cases i with
      | zero => simp
      | succ i =>
        simp only [List.zipWith_cons_cons, List.getD_cons_succ]
        exact ih bs i (by simpa using hi) (by simpa using hj)

theorem getD_map_optNeg (l : List (Option ℚ)) (i : ℕ) :
    (l.map optNeg).getD i none = optNeg (l.getD i none) := by
  rw [List.getD_eq_getElem?_getD, List.getD_eq_getElem?_getD, List.getElem?_map]
  cases l[i]? <;> simp [optNeg]

/-! ## C3, C4: signal rule engine -/

/-- C3.  Mutual exclusivity of signals: for every pair of buy/sell score
columns (missing values included) and every pair of thresholds, the batch rule
`apply_rule_with_score_thresholds` never sets both `buy_signal` and
`sell_signal` true on the same row. -/
theorem apply_rule_mutual_exclusivity (buyCol sellCol : List (Option ℚ))
    (buyThreshold sellThreshold : ℚ) (i : ℕ) :
    (((apply_rule_with_score_thresholds buyCol sellCol buyThreshold
        sellThreshold).getD i (false, false)).1 &&
      ((apply_rule_with_score_thresholds buyCol sellCol buyThreshold
        sellThreshold).getD i (false, false)).2) = false := by
  unfold apply_rule_with_score_thresholds
  refine zipWith_getD_of_prop _ (false, false)
    (fun pr : Bool × Bool => (pr.1 && pr.2) = false) rfl ?_ buyCol sellCol i
  intro b s
  match b, s with
  | none, _ => simp [pySub, pyGt]
  | some bv, none => simp [pySub, pyGt]
  | some bv, some sv =>
    by_cases h : bv ≤ sv
    · have hb : ¬ ((0 : ℚ) < bv - sv) := by linarith
      simp [pySub, pyGt, hb]
    · have hs : ¬ ((0 : ℚ) < sv - bv) := by linarith
      simp [pySub, pyGt, hs]

/-- C4.  Row/batch equivalence: the single-row rule
`apply_rule_with_score_thresholds_one_row` applied to the scores of row `i`
produces exactly the batch rule's pair of booleans for that row, for every
table and thresholds. -/
theorem apply_rule_row_batch_equivalence (buyCol sellCol : List (Option ℚ))
    (buyThreshold sellThreshold : ℚ) (i : ℕ)
    (hi : i < buyCol.length) (hlen : buyCol.length = sellCol.length) :
    (apply_rule_with_score_thresholds buyCol sellCol buyThreshold
        sellThreshold).getD i (false, false) =
      apply_rule_with_score_thresholds_one_row (buyCol.getD i none)
        (sellCol.getD i none) buyThreshold sellThreshold := by
  unfold apply_rule_with_score_thresholds apply_rule_with_score_thresholds_one_row
  exact zipWith_getD_eq _ _ none none buyCol sellCol i hi (hlen ▸ hi)

/-- Witness for C4 at a concrete table. -/
theorem apply_rule_row_batch_equivalence_witness :
    (apply_rule_with_score_thresholds [some 2, none] [some 1, some 1] 0 0).getD 0
        (false, false) =
      apply_rule_with_score_thresholds_one_row (([some 2, none] :
        List (Option ℚ)).getD 0 none) (([some 1, some 1] :
        List (Option ℚ)).getD 0 none) 0 0 :=
  apply_rule_row_batch_equivalence [some 2, none] [some 1, some 1] 0 0 0
    (by decide) (by decide)

/-! ## C6, C7: score aggregation -/

/-- C6 counterexample.  With `point_threshold = 0.0` the Python truthiness test
`if point_threshold:` skips binarization: a single score `0.3` with mean
`0.3 ≥ 0.0` comes back as `0.3`, not `1.0`. -/
theorem aggregate_scores_zero_threshold_counterexample :
    aggregate_scores [[some (3/10)]] (some 0) none = [some (3/10)] ∧
      (0 : ℚ) ≤ 3/10 ∧ (3/10 : ℚ) ≠ 1 :=
  ⟨by with_unfolding_all rfl, by norm_num, by norm_num⟩

/-- C6 as amended.  For every given non-zero `point_threshold`, at every
timestamp whose per-timestamp mean is present, `aggregate_scores` outputs
`1.0` when the mean is `≥ point_threshold` and `0.0` otherwise (before
optional smoothing); with `point_threshold = 0.0` the binarization step is
skipped entirely. -/
theorem aggregate_scores_binarization (rows : List (List (Option ℚ))) (t : ℚ)
    (ht : t ≠ 0) (i : ℕ) (x : ℚ)
    (hx : (rows.map optMean).getD i none = some x) :
    (aggregate_scores rows (some t) none).getD i none =
      some (if t ≤ x then 1 else 0) := by
  have hlt : i < (rows.map optMean).length := by
    by_contra h
    rw [List.getD_eq_default _ _ (by omega)] at hx
    exact Option.noConfusion hx
  unfold aggregate_scores
  simp only [ht, if_false]
  rw [List.getD_eq_getElem?_getD, List.getElem?_map,
    List.getElem?_eq_getElem hlt]
  rw [List.getD_eq_getElem?_getD, List.getElem?_eq_getElem hlt] at hx
  simp only [Option.getD_some] at hx ⊢
  rw [hx]
  rfl

/-- Witness for C6 as amended at a concrete input. -/
theorem aggregate_scores_binarization_witness :
    (aggregate_scores [[some 1]] (some (1/2)) none).getD 0 none =
      some (if (1/2 : ℚ) ≤ 1 then 1 else 0) :=
  aggregate_scores_binarization [[some 1]] (1/2) (by norm_num) 0 1
    (by with_unfolding_all rfl)

/-- C7 counterexample.  With window `3` the source uses
`min_periods = 3 // 2 = 1`, not `⌈3/2⌉ = 2`: a window holding a single
non-missing point already produces a non-missing smoothed output. -/
theorem rolling_min_support_counterexample :
    (aggregate_scores [[none], [none], [some 1]] none (some 3)).getD 2 none =
        some 1 ∧
      presentInWindow [none, none, some 1] 3 2 = 1 ∧ (1 : ℕ) < (3 + 1) / 2 :=
  ⟨by with_unfolding_all rfl, by with_unfolding_all rfl, by norm_num⟩

/-- C7 as amended.  The simple moving average of the smoothing stage uses
`min_periods = window // 2`: the smoothed output at a position is non-missing
iff at least `max (⌊window/2⌋) 1` of the points of the trailing window at that
position are non-missing (the floor, not the ceiling, of `window/2`; the `max`
with `1` because a window with zero observations has no mean). -/
theorem rolling_min_support (xs : List (Option ℚ)) (w i : ℕ)
    (hi : i < xs.length) :
    ((rollingMean xs w (w / 2)).getD i none).isSome = true ↔
      w / 2 ≤ presentInWindow xs w i ∧ 1 ≤ presentInWindow xs w i := by
  unfold rollingMean presentInWindow
  rw [List.getD_eq_getElem?_getD, List.getElem?_map,
    List.getElem?_eq_getElem (by simpa using hi)]
  simp only [List.getElem_range, Option.map_some', Option.getD_some]
  by_cases h : w / 2 ≤ (windowVals xs w i).length ∧ windowVals xs w i ≠ []
  · rw [if_pos h]
    have h2 := h.2
    rw [← List.length_pos_iff_ne_nil] at h2
    simp only [Option.isSome_some, true_iff]
    omega
  · rw [if_neg h]
    simp only [Option.isSome_none, Bool.false_eq_true, false_iff]
    rw [Decidable.not_and_iff_or_not] at h
    rcases h with h | h
    · omega
    · rw [Decidable.not_not, ← List.length_eq_zero] at h
      omega

/-- Witness for C7 as amended at a concrete input. -/
theorem rolling_min_support_witness :
    ((rollingMean [some 1, some 2] 2 (2 / 2)).getD 1 none).isSome = true ↔
      2 / 2 ≤ presentInWindow [some 1, some 2] 2 1 ∧
        1 ≤ presentInWindow [some 1, some 2] 2 1 :=
  rolling_min_support [some 1, some 2] 2 1 (by decide)

/-! ## C8: combine sign antisymmetry -/

/-- C8.  For buy/sell score columns of equal length whose entries are all
present and non-negative (`pyGe … 0` is exactly "present and `≥ 0`"): both
`combine_scores_relative` and `combine_scores_difference` return
`sell_out = -buy_out` at every timestamp, and the relative combination is
missing exactly where `buy + sell = 0`. -/
theorem combine_scores_sign_antisymmetry (buyCol sellCol : List (Option ℚ))
    (hlen : buyCol.length = sellCol.length)
    (_hbuy : ∀ i < buyCol.length, pyGe (buyCol.getD i none) 0 = true)
    (_hsell : ∀ i < sellCol.length, pyGe (sellCol.getD i none) 0 = true) :
    (∀ i, ((combine_scores_relative buyCol sellCol).2).getD i none =
        optNeg (((combine_scores_relative buyCol sellCol).1).getD i none)) ∧
    (∀ i, ((combine_scores_difference buyCol sellCol).2).getD i none =
        optNeg (((combine_scores_difference buyCol sellCol).1).getD i none)) ∧
    (∀ i, i < buyCol.length → ∀ bv sv, buyCol.getD i none = some bv →
        sellCol.getD i none = some sv →
        (((combine_scores_relative buyCol sellCol).1).getD i none = none ↔
          bv + sv = 0)) := by
  refine ⟨fun i => getD_map_optNeg _ i, fun i => getD_map_optNeg _ i, ?_⟩
  intro i hi bv sv hb hs
  show (List.zipWith _ buyCol sellCol).getD i none = none ↔ bv + sv = 0
  rw [zipWith_getD_eq _ _ none none buyCol sellCol i hi (hlen ▸ hi), hb, hs]
  by_cases h : bv + sv = 0
  · simp [h]
  · simp [h]

/-- Witness for C8 at concrete columns. -/
theorem combine_scores_sign_antisymmetry_witness :
    (∀ i, ((combine_scores_relative [some 1, some 0] [some 1, some 0]).2).getD
        i none = optNeg (((combine_scores_relative [some 1, some 0]
        [some 1, some 0]).1).getD i none)) ∧
    (∀ i, ((combine_scores_difference [some 1, some 0] [some 1, some 0]).2).getD
        i none = optNeg (((combine_scores_difference [some 1, some 0]
        [some 1, some 0]).1).getD i none)) ∧
    (∀ i, i < ([some 1, some 0] : List (Option ℚ)).length → ∀ bv sv,
        ([some 1, some 0] : List (Option ℚ)).getD i none = some bv →
        ([some 1, some 0] : List (Option ℚ)).getD i none = some sv →
        (((combine_scores_relative [some 1, some 0] [some 1, some 0]).1).getD
          i none = none ↔ bv + sv = 0)) :=
  combine_scores_sign_antisymmetry [some 1, some 0] [some 1, some 0] rfl
    (by decide) (by decide)

/-! ## C9: empty-curve behaviour of discretize -/

/-- C9 counterexample.  On the empty curve `discretize` fails with the
incidental `IndexError` of indexing `depth[0]` / `depth[-1]`, not with the
deliberate `InvalidInput` validation error the claim describes. -/
theorem discretize_empty_curve_counterexample :
    discretize ("ask") [] 1 none = .error PyErr.indexError ∧
      PyErr.indexError ≠ PyErr.invalidInput := ⟨rfl, by decide⟩

/-- C9 as amended.  For the empty curve input, `discretize` fails fast for
every `bin_size`, side and start — but with an uncaught `IndexError` from
indexing the empty depth list; no deliberate `InvalidInput` validation exists
in the code. -/
theorem discretize_empty_curve_index_error (side : String) (bin_size : ℚ)
    (start? : Option ℚ) :
    discretize side [] bin_size start? = .error PyErr.indexError := rfl

/-! ## C10: backtest simulator skips zero prices -/

/-- C10.  The backtest simulator skips a row whose price is exactly `0` in the
same way as a row with a missing price: for every state, row index and signal
pair — a true buy or sell signal included — the step leaves the state
unchanged (no trade recorded, no metric updated), exactly as for a missing
price. -/
theorem simStep_zero_price_skipped (st : SimState) (idx : ℕ)
    (sell_signal buy_signal : Bool) :
    simStep st idx sell_signal buy_signal (some 0) = st ∧
      simStep st idx sell_signal buy_signal (some 0) =
        simStep st idx sell_signal buy_signal none := by
  constructor <;> simp [simStep]

/-! ## Area preservation: clip and step-integral lemmas -/

theorem clip_eq_zero (a b l r : ℚ) (h : min b r ≤ max a l) : clip a b l r = 0 := by
  unfold clip
  rw [max_eq_left (by linarith)]

theorem clip_eq_sub (a b l r : ℚ) (h : max a l ≤ min b r) :
    clip a b l r = min b r - max a l := by
  unfold clip
  rw [max_eq_right (by linarith)]

theorem clip_split (a m b l r : ℚ) (h1 : a ≤ m) (h2 : m ≤ b) :
    clip a b l r = clip a m l r + clip m b l r := by
  simp only [clip, max_def, min_def]
  split_ifs <;> linarith

theorem stepIntegral_add (depth : List Point) (M a m b : ℚ) (h1 : a ≤ m)
    (h2 : m ≤ b) :
    stepIntegral depth M a b =
      stepIntegral depth M a m + stepIntegral depth M m b := by
  unfold stepIntegral
  rw [← Finset.sum_add_distrib]
  refine Finset.sum_congr rfl (fun i _ => ?_)
  rw [clip_split a m b _ _ h1 h2]
  ring

theorem stepIntegral_self (depth : List Point) (M a : ℚ) :
    stepIntegral depth M a a = 0 := by
  unfold stepIntegral
  refine Finset.sum_eq_zero (fun i _ => ?_)
  rw [clip_eq_zero _ _ _ _ (by
    have h1 := min_le_left a (horizonAt depth M i)
    have h2 := le_max_left a (depth.getD i (0, 0)).1
    linarith)]
  exact mul_zero _

theorem getLastD_eq_getD (depth : List Point) :
    depth.getLastD (0, 0) = depth.getD (depth.length - 1) (0, 0) := by
  rw [List.getLastD_eq_getLast?, List.getLast?_eq_getElem?,
    List.getD_eq_getElem?_getD]

/-- Strictly ascending chains give index-monotone prices. -/
theorem getD_lt_of_chain (depth : List Point)
    (hc : List.Chain' (fun p q : Point => p.1 < q.1) depth) :
    ∀ i j, i < j → j < depth.length →
      (depth.getD i (0, 0)).1 < (depth.getD j (0, 0)).1 := by
  have hstep : ∀ i, i + 1 < depth.length →
      (depth.getD i (0, 0)).1 < (depth.getD (i + 1) (0, 0)).1 := by
    intro i hi1
    have h := List.chain'_iff_get.mp hc i (by omega)
    rw [List.getD_eq_getElem?_getD, List.getD_eq_getElem?_getD,
      List.getElem?_eq_getElem (by omega : i < depth.length),
      List.getElem?_eq_getElem hi1]
    simpa [List.get_eq_getElem] using h
  intro i j hij hj
  induction j with
  | zero => omega
  | succ j ih =>
    rcases Nat.lt_or_ge i j with h | h
    · exact lt_trans (ih h (by omega)) (hstep j hj)
    · have hi : i = j := by omega
      subst hi
      exact hstep i hj

/-- Membership in the (ascending) bin point-id list. -/
theorem mem_binPointIds_true (depth : List Point) (a b : ℚ) (i : ℕ) :
    i ∈ binPointIds true depth a b ↔
      i < depth.length ∧ a ≤ (depth.getD i (0, 0)).1 ∧
        (depth.getD i (0, 0)).1 < b := by
  simp [binPointIds, List.mem_filter, List.mem_range, and_assoc]

/-- Closed form of the inner point loop of a bin. -/
theorem binInner_spec (depth : List Point) (s : ℚ) :
    ∀ (k : ℕ), 1 ≤ k → ∀ (first : ℕ) (pp pv a : ℚ),
      binInner depth s first k (pp, pv, a) =
        ((depth.getD (first + k - 1) (0, 0)).1,
         (depth.getD (first + k - 1) (0, 0)).2,
         a + pv * (|(depth.getD first (0, 0)).1 - pp| / s) +
           ∑ j ∈ Finset.range (k - 1),
             (depth.getD (first + j) (0, 0)).2 *
               (|(depth.getD (first + j + 1) (0, 0)).1 -
                 (depth.getD (first + j) (0, 0)).1| / s)) := by
  intro k
  induction k with
  | zero => omega
  | succ k ih =>
    intro _ first pp pv a
    rcases Nat.eq_zero_or_pos k with hk | hk
    · subst hk
      simp [binInner]
    · rw [show binInner depth s first (k + 1) (pp, pv, a) =
          binInner depth s (first + 1) k
            ((depth.getD first (0, 0)).1, (depth.getD first (0, 0)).2,
             a + pv * (|(depth.getD first (0, 0)).1 - pp| / s)) from rfl,
        ih hk (first + 1) _ _ _]
      have hsum : ∀ j : ℕ,
          (depth.getD (first + 1 + j) (0, 0)).2 *
            (|(depth.getD (first + 1 + j + 1) (0, 0)).1 -
              (depth.getD (first + 1 + j) (0, 0)).1| / s) =
          (depth.getD (first + (j + 1)) (0, 0)).2 *
            (|(depth.getD (first + (j + 1) + 1) (0, 0)).1 -
              (depth.getD (first + (j + 1)) (0, 0)).1| / s) := by
        intro j
        rw [show first + 1 + j = first + (j + 1) from by omega]
      rw [show first + 1 + k - 1 = first + (k + 1) - 1 from by omega,
        Finset.sum_congr rfl (fun j _ => hsum j),
        show k + 1 - 1 = (k - 1) + 1 from by omega, Finset.sum_range_succ']
      simp only [Prod.mk.injEq, Nat.add_zero]
      refine ⟨trivial, trivial, ?_⟩
      ring

/-- Evaluation of `binStep` (ascending) on an empty bin with an assigned
`prev_point`. -/
theorem binStep_true_empty (depth : List Point) (s start : ℚ) (b : ℕ)
    (pp : Point)
    (hids : binPointIds true depth (start + b * s) (start + b * s + s) = []) :
    binStep true depth s start (some pp) b =
      .ok (pp.2 * (|start + b * s + s - (start + b * s)| / s), some pp) := by
  simp only [binStep, reduceIte, hids]
  rfl

/-- Evaluation of `binStep` (ascending) on a non-empty bin. -/
theorem binStep_true_nonempty (depth : List Point) (s start : ℚ) (b : ℕ)
    (st : Option Point) (first last : ℕ)
    (hmin : (binPointIds true depth (start + b * s) (start + b * s + s)).min? =
      some first)
    (hmax : (binPointIds true depth (start + b * s) (start + b * s + s)).max? =
      some last) :
    binStep true depth s start st b =
      .ok ((binInner depth s first (last + 1 - first)
              (start + b * s,
               if 1 ≤ first then (depth.getD (first - 1) (0, 0)).2 else 0,
               0)).2.2 +
            (binInner depth s first (last + 1 - first)
              (start + b * s,
               if 1 ≤ first then (depth.getD (first - 1) (0, 0)).2 else 0,
               0)).2.1 *
              (|start + b * s + s -
                (binInner depth s first (last + 1 - first)
                  (start + b * s,
                   if 1 ≤ first then (depth.getD (first - 1) (0, 0)).2 else 0,
                   0)).1| / s),
        some (depth.getD last (0, 0))) := by
  simp only [binStep, reduceIte, hmin, hmax]
  by_cases h1 : 1 ≤ first
  · simp only [h1, reduceIte]
  · simp only [h1, reduceIte]

theorem getD_le_of_mono (depth : List Point)
    (hmono : ∀ i j, i < j → j < depth.length →
      (depth.getD i (0, 0)).1 < (depth.getD j (0, 0)).1)
    (i j : ℕ) (hij : i ≤ j) (hj : j < depth.length) :
    (depth.getD i (0, 0)).1 ≤ (depth.getD j (0, 0)).1 := by
  rcases eq_or_lt_of_le hij with rfl | h
  · exact le_refl _
  · exact (hmono i j h hj).le

set_option maxHeartbeats 1000000

theorem binStep_spec (depth : List Point) (s M q0 : ℚ) (hs : 0 < s)
    (hlen : 0 < depth.length)
    (hq0 : (depth.getD 0 (0, 0)).1 = q0)
    (hmono : ∀ i j, i < j → j < depth.length →
      (depth.getD i (0, 0)).1 < (depth.getD j (0, 0)).1)
    (b : ℕ) (st : Option Point)
    (hM : q0 + ((b : ℚ) + 1) * s ≤ M)
    (hinv : StateInv depth q0 s b st) :
    ∃ vol st', binStep true depth s q0 st b = .ok (vol, st') ∧
      s * vol = stepIntegral depth M (q0 + b * s) (q0 + b * s + s) ∧
      StateInv depth q0 s (b + 1) st' := by
  have hs' : s ≠ 0 := hs.ne'
  have hmem : ∀ i : ℕ,
      i ∈ binPointIds true depth (q0 + b * s) (q0 + b * s + s) ↔
      i < depth.length ∧ q0 + b * s ≤ (depth.getD i (0, 0)).1 ∧
        (depth.getD i (0, 0)).1 < q0 + b * s + s :=
    fun i => mem_binPointIds_true depth _ _ i
  rcases eq_or_ne (binPointIds true depth (q0 + b * s) (q0 + b * s + s)) []
    with hids | hids
  · -- empty bin
    have hnotin : ∀ i, i < depth.length →
        (depth.getD i (0, 0)).1 < q0 + b * s ∨
          q0 + b * s + s ≤ (depth.getD i (0, 0)).1 := by
      intro i hi
      by_contra hcon
      push_neg at hcon
      have hm : i ∈ binPointIds true depth (q0 + b * s) (q0 + b * s + s) :=
        (hmem i).mpr ⟨hi, hcon.1, hcon.2⟩
      rw [hids] at hm
      exact List.not_mem_nil _ hm
    rcases hinv with ⟨hb0, -⟩ | ⟨j, hjn, hst, hjlt, hjmax⟩
    · exfalso
      have h0 : (0 : ℕ) ∈ binPointIds true depth (q0 + b * s) (q0 + b * s + s) := by
        rw [hmem 0]
        subst hb0
        push_cast
        exact ⟨hlen, by rw [hq0]; linarith, by rw [hq0]; linarith⟩
      rw [hids] at h0
      exact List.not_mem_nil _ h0
    · subst hst
      refine ⟨(depth.getD j (0, 0)).2 *
          (|q0 + b * s + s - (q0 + b * s)| / s),
        some (depth.getD j (0, 0)),
        binStep_true_empty depth s q0 b _ hids, ?_, ?_⟩
      · -- sum equation
        have hstepI : stepIntegral depth M (q0 + b * s) (q0 + b * s + s) =
            (depth.getD j (0, 0)).2 * s := by
          unfold stepIntegral
          refine Eq.trans (Finset.sum_eq_single j ?_ ?_) ?_
          · intro i hi hne
            have hiN : i < depth.length := Finset.mem_range.mp hi
            rcases hnotin i hiN with hlt | hge
            · have hij : i < j := lt_of_le_of_ne (hjmax i hiN hlt) hne
              have hH : horizonAt depth M i = (depth.getD (i + 1) (0, 0)).1 := by
                unfold horizonAt
                rw [if_pos (by omega)]
              have hle : (depth.getD (i + 1) (0, 0)).1 ≤
                  (depth.getD j (0, 0)).1 :=
                getD_le_of_mono depth hmono (i + 1) j (by omega) hjn
              rw [hH, clip_eq_zero _ _ _ _ (by
                have h1 := min_le_right (q0 + (b : ℚ) * s + s)
                  (depth.getD (i + 1) (0, 0)).1
                have h2 := le_max_left (q0 + (b : ℚ) * s)
                  (depth.getD i (0, 0)).1
                linarith)]
              exact mul_zero _
            · rw [clip_eq_zero _ _ _ _ (by
                have h1 := min_le_left (q0 + (b : ℚ) * s + s)
                  (horizonAt depth M i)
                have h2 := le_max_right (q0 + (b : ℚ) * s)
                  (depth.getD i (0, 0)).1
                linarith)]
              exact mul_zero _
          · intro hj
            exact absurd (Finset.mem_range.mpr hjn) hj
          · -- the j-term
            have hHj : q0 + b * s + s ≤ horizonAt depth M j := by
              unfold horizonAt
              split_ifs with hj1
              · rcases hnotin (j + 1) hj1 with hlt | hge
                · exact absurd (hjmax (j + 1) hj1 hlt) (by omega)
                · exact hge
              · calc q0 + (b : ℚ) * s + s = q0 + ((b : ℚ) + 1) * s := by ring
                  _ ≤ M := hM
            rw [clip_eq_sub _ _ _ _ (by
              rw [min_eq_left hHj, max_eq_left hjlt.le]
              linarith)]
            rw [min_eq_left hHj, max_eq_left hjlt.le]
            ring
        rw [hstepI]
        rw [show q0 + (b : ℚ) * s + s - (q0 + (b : ℚ) * s) = s from by ring,
          abs_of_pos hs, div_self hs', mul_one]
        ring
      · -- invariant
        right
        refine ⟨j, hjn, rfl, ?_, ?_⟩
        · push_cast
          nlinarith
        · intro i hiN hilt
          rcases hnotin i hiN with hlt | hge
          · exact hjmax i hiN hlt
          · exfalso
            push_cast at hilt
            nlinarith
  · -- non-empty bin
    obtain ⟨x, hx⟩ := List.exists_mem_of_ne_nil _ hids
    obtain ⟨first, hmin⟩ :=
      Option.isSome_iff_exists.mp (List.isSome_min?_of_mem hx)
    obtain ⟨last, hmax⟩ :=
      Option.isSome_iff_exists.mp (List.isSome_max?_of_mem hx)
    obtain ⟨hfmem, hfmin⟩ := List.min?_eq_some_iff'.mp hmin
    obtain ⟨hlmem, hlmax⟩ := List.max?_eq_some_iff'.mp hmax
    have hfl : first ≤ last := hfmin last hlmem
    rw [hmem first] at hfmem
    rw [hmem last] at hlmem
    obtain ⟨hfn, hfA, hfB⟩ := hfmem
    obtain ⟨hln, hlA, hlB⟩ := hlmem
    have hsucc : ∀ hl1 : last + 1 < depth.length,
        q0 + b * s + s ≤ (depth.getD (last + 1) (0, 0)).1 := by
      intro hl1
      by_contra hcon
      push_neg at hcon
      have hA1 : q0 + b * s ≤ (depth.getD (last + 1) (0, 0)).1 := by
        have := hmono last (last + 1) (by omega) hl1
        linarith
      have hm : last + 1 ∈ binPointIds true depth (q0 + b * s) (q0 + b * s + s) :=
        (hmem (last + 1)).mpr ⟨hl1, hA1, hcon⟩
      exact absurd (hlmax (last + 1) hm) (by omega)
    have hprev : 1 ≤ first → (depth.getD (first - 1) (0, 0)).1 < q0 + b * s := by
      intro h1
      by_contra hcon
      push_neg at hcon
      have hfB1 : (depth.getD (first - 1) (0, 0)).1 < q0 + b * s + s := by
        have := hmono (first - 1) first (by omega) hfn
        linarith
      have hm : first - 1 ∈ binPointIds true depth (q0 + b * s) (q0 + b * s + s) :=
        (hmem (first - 1)).mpr ⟨by omega, hcon, hfB1⟩
      exact absurd (hfmin (first - 1) hm) (by omega)
    have hk1 : 1 ≤ last + 1 - first := by omega
    refine ⟨_, _, binStep_true_nonempty depth s q0 b st first last hmin hmax,
      ?_, ?_⟩
    · -- the sum equation
      rw [binInner_spec depth s (last + 1 - first) hk1 first (q0 + b * s)
        (if 1 ≤ first then (depth.getD (first - 1) (0, 0)).2 else 0) 0]
      rw [show first + (last + 1 - first) - 1 = last from by omega,
        show last + 1 - first - 1 = last - first from by omega]
      rw [abs_of_nonneg (by linarith :
        (0 : ℚ) ≤ (depth.getD first (0, 0)).1 - (q0 + b * s))]
      rw [abs_of_nonneg (by linarith :
        (0 : ℚ) ≤ q0 + b * s + s - (depth.getD last (0, 0)).1)]
      rw [Finset.sum_congr rfl (fun j hj => by
        rw [abs_of_nonneg (by
          have hjlt : j < last - first := Finset.mem_range.mp hj
          have h2 := hmono (first + j) (first + j + 1) (by omega) (by omega)
          linarith :
          (0 : ℚ) ≤ (depth.getD (first + j + 1) (0, 0)).1 -
            (depth.getD (first + j) (0, 0)).1)])]
      have hcell : ∀ v y : ℚ, s * (v * (y / s)) = v * y := by
        intro v y
        field_simp
      trans ((if 1 ≤ first then (depth.getD (first - 1) (0, 0)).2 else 0) *
          ((depth.getD first (0, 0)).1 - (q0 + b * s)) +
        (∑ j ∈ Finset.range (last - first),
          (depth.getD (first + j) (0, 0)).2 *
            ((depth.getD (first + j + 1) (0, 0)).1 -
              (depth.getD (first + j) (0, 0)).1)) +
        (depth.getD last (0, 0)).2 *
          (q0 + b * s + s - (depth.getD last (0, 0)).1))
      · have hsum : s * (∑ j ∈ Finset.range (last - first),
            (depth.getD (first + j) (0, 0)).2 *
              (((depth.getD (first + j + 1) (0, 0)).1 -
                (depth.getD (first + j) (0, 0)).1) / s)) =
            ∑ j ∈ Finset.range (last - first),
              (depth.getD (first + j) (0, 0)).2 *
                ((depth.getD (first + j + 1) (0, 0)).1 -
                  (depth.getD (first + j) (0, 0)).1) := by
          rw [Finset.mul_sum]
          exact Finset.sum_congr rfl (fun j _ => hcell _ _)
        calc s * ((0 +
              (if 1 ≤ first then (depth.getD (first - 1) (0, 0)).2 else 0) *
                (((depth.getD first (0, 0)).1 - (q0 + b * s)) / s) +
              ∑ j ∈ Finset.range (last - first),
                (depth.getD (first + j) (0, 0)).2 *
                  (((depth.getD (first + j + 1) (0, 0)).1 -
                    (depth.getD (first + j) (0, 0)).1) / s)) +
            (depth.getD last (0, 0)).2 *
              ((q0 + b * s + s - (depth.getD last (0, 0)).1) / s))
            = s * ((if 1 ≤ first then (depth.getD (first - 1) (0, 0)).2 else 0) *
                (((depth.getD first (0, 0)).1 - (q0 + b * s)) / s)) +
              s * (∑ j ∈ Finset.range (last - first),
                (depth.getD (first + j) (0, 0)).2 *
                  (((depth.getD (first + j + 1) (0, 0)).1 -
                    (depth.getD (first + j) (0, 0)).1) / s)) +
              s * ((depth.getD last (0, 0)).2 *
                ((q0 + b * s + s - (depth.getD last (0, 0)).1) / s)) := by
              ring
          _ = (if 1 ≤ first then (depth.getD (first - 1) (0, 0)).2 else 0) *
                ((depth.getD first (0, 0)).1 - (q0 + b * s)) +
              (∑ j ∈ Finset.range (last - first),
                (depth.getD (first + j) (0, 0)).2 *
                  ((depth.getD (first + j + 1) (0, 0)).1 -
                    (depth.getD (first + j) (0, 0)).1)) +
              (depth.getD last (0, 0)).2 *
                (q0 + b * s + s - (depth.getD last (0, 0)).1) := by
              rw [hcell, hcell, hsum]
      · -- the closed form equals the step integral over the bin
        have hsub : Finset.Ico (first - 1) (last + 1) ⊆
            Finset.range depth.length := by
          intro i hi
          rw [Finset.mem_Ico] at hi
          exact Finset.mem_range.mpr (by omega)
        have hzero : ∀ i ∈ Finset.range depth.length,
            i ∉ Finset.Ico (first - 1) (last + 1) →
            (depth.getD i (0, 0)).2 * clip (q0 + b * s) (q0 + b * s + s)
              (depth.getD i (0, 0)).1 (horizonAt depth M i) = 0 := by
          intro i hi hnot
          have hiN : i < depth.length := Finset.mem_range.mp hi
          rw [Finset.mem_Ico] at hnot
          push_neg at hnot
          rcases Nat.lt_or_ge i (first - 1) with hilt | hige
          · have h1f : 1 ≤ first := by omega
            have hH : horizonAt depth M i = (depth.getD (i + 1) (0, 0)).1 := by
              unfold horizonAt
              rw [if_pos (by omega)]
            have hle : (depth.getD (i + 1) (0, 0)).1 ≤
                (depth.getD (first - 1) (0, 0)).1 :=
              getD_le_of_mono depth hmono (i + 1) (first - 1) (by omega)
                (by omega)
            have hpa := hprev h1f
            rw [hH, clip_eq_zero _ _ _ _ (by
              have h1 := min_le_right (q0 + (b : ℚ) * s + s)
                (depth.getD (i + 1) (0, 0)).1
              have h2 := le_max_left (q0 + (b : ℚ) * s)
                (depth.getD i (0, 0)).1
              linarith)]
            exact mul_zero _
          · have hli : last + 1 ≤ i := hnot hige
            have hgeB : q0 + b * s + s ≤ (depth.getD i (0, 0)).1 :=
              le_trans (hsucc (by omega))
                (getD_le_of_mono depth hmono (last + 1) i hli hiN)
            rw [clip_eq_zero _ _ _ _ (by
              have h1 := min_le_left (q0 + (b : ℚ) * s + s)
                (horizonAt depth M i)
              have h2 := le_max_right (q0 + (b : ℚ) * s)
                (depth.getD i (0, 0)).1
              linarith)]
            exact mul_zero _
        unfold stepIntegral
        rw [← Finset.sum_subset hsub hzero]
        rw [← Finset.sum_Ico_consecutive _
          (show first - 1 ≤ first from by omega)
          (show first ≤ last + 1 from by omega)]
        rw [Finset.sum_Ico_succ_top hfl]
        have htlast : (depth.getD last (0, 0)).2 *
            clip (q0 + b * s) (q0 + b * s + s) (depth.getD last (0, 0)).1
              (horizonAt depth M last) =
            (depth.getD last (0, 0)).2 *
              (q0 + b * s + s - (depth.getD last (0, 0)).1) := by
          have hHl : q0 + b * s + s ≤ horizonAt depth M last := by
            unfold horizonAt
            split_ifs with hl1
            · exact hsucc hl1
            · calc q0 + (b : ℚ) * s + s = q0 + ((b : ℚ) + 1) * s := by ring
                _ ≤ M := hM
          rw [clip_eq_sub _ _ _ _ (by
            rw [min_eq_left hHl, max_eq_right hlA]
            linarith)]
          rw [min_eq_left hHl, max_eq_right hlA]
        have hmid : ∀ k ∈ Finset.Ico first last,
            (depth.getD k (0, 0)).2 *
              clip (q0 + b * s) (q0 + b * s + s)
                (depth.getD k (0, 0)).1
                (horizonAt depth M k) =
            (depth.getD k (0, 0)).2 *
              ((depth.getD (k + 1) (0, 0)).1 -
                (depth.getD k (0, 0)).1) := by
          intro k hk
          rw [Finset.mem_Ico] at hk
          have hH : horizonAt depth M k =
              (depth.getD (k + 1) (0, 0)).1 := by
            unfold horizonAt
            rw [if_pos (by omega)]
          have hA_le : q0 + b * s ≤ (depth.getD k (0, 0)).1 :=
            le_trans hfA
              (getD_le_of_mono depth hmono first k hk.1 (by omega))
          have hr_le : (depth.getD (k + 1) (0, 0)).1 ≤
              (depth.getD last (0, 0)).1 :=
            getD_le_of_mono depth hmono (k + 1) last (by omega) hln
          have hstrict := hmono k (k + 1) (by omega) (by omega)
          rw [hH, clip_eq_sub _ _ _ _ (by
            rw [min_eq_right (by linarith), max_eq_right hA_le]
            linarith)]
          rw [min_eq_right (by linarith), max_eq_right hA_le]
        rw [Finset.sum_congr rfl hmid, htlast]
        rcases Nat.eq_zero_or_pos first with hf0 | hf1
        · subst hf0
          rw [show (0 : ℕ) - 1 = 0 from rfl, Finset.Ico_self,
            Finset.sum_empty]
          rw [if_neg (by omega), Finset.sum_Ico_eq_sum_range]
          ring
        · have hf1' : 1 ≤ first := hf1
          rw [show Finset.Ico (first - 1) first = {first - 1} from by
            ext x
            simp only [Finset.mem_Ico, Finset.mem_singleton]
            omega]
          have hHf : horizonAt depth M (first - 1) =
              (depth.getD first (0, 0)).1 := by
            unfold horizonAt
            rw [if_pos (by omega), show first - 1 + 1 = first from by omega]
          have hpa := hprev hf1'
          rw [Finset.sum_singleton, hHf, clip_eq_sub _ _ _ _ (by
            rw [min_eq_right hfB.le, max_eq_left hpa.le]
            linarith)]
          rw [min_eq_right hfB.le, max_eq_left hpa.le]
          rw [if_pos hf1', Finset.sum_Ico_eq_sum_range]
          ring
    · -- the invariant after a non-empty bin
      right
      refine ⟨last, hln, rfl, ?_, ?_⟩
      · push_cast
        nlinarith
      · intro i hiN hilt
        by_contra hcon
        push_neg at hcon
        have hge : q0 + b * s + s ≤ (depth.getD i (0, 0)).1 :=
          le_trans (hsucc (by omega))
            (getD_le_of_mono depth hmono (last + 1) i (by omega) hiN)
        push_cast at hilt
        nlinarith

theorem binLoop_spec (depth : List Point) (s M q0 : ℚ) (hs : 0 < s)
    (hlen : 0 < depth.length)
    (hq0 : (depth.getD 0 (0, 0)).1 = q0)
    (hmono : ∀ i j, i < j → j < depth.length →
      (depth.getD i (0, 0)).1 < (depth.getD j (0, 0)).1) :
    ∀ (k b : ℕ) (st : Option Point),
      StateInv depth q0 s b st →
      q0 + ((b : ℚ) + (k : ℚ)) * s ≤ M →
      ∃ vols st', binLoop true depth s q0 b k st = .ok (vols, st') ∧
        vols.length = k ∧
        s * vols.sum =
          stepIntegral depth M (q0 + b * s) (q0 + ((b : ℚ) + (k : ℚ)) * s) ∧
        StateInv depth q0 s (b + k) st' := by
  intro k
  induction k with
  | zero =>
    intro b st hinv hM
    refine ⟨[], st, rfl, rfl, ?_, hinv⟩
    have he : q0 + ((b : ℚ) + ((0 : ℕ) : ℚ)) * s = q0 + (b : ℚ) * s := by
      push_cast
      ring
    rw [he, stepIntegral_self, List.sum_nil, mul_zero]
  | succ k ih =>
    intro b st hinv hM
    have hks : (0 : ℚ) ≤ (k : ℚ) * s :=
      mul_nonneg (by positivity) hs.le
    obtain ⟨vol, st1, hstep, hsum1, hinv1⟩ :=
      binStep_spec depth s M q0 hs hlen hq0 hmono b st
        (by push_cast at hM ⊢; nlinarith) hinv
    obtain ⟨vols, st2, hloop, hlength, hsum2, hinv2⟩ :=
      ih (b + 1) st1 hinv1 (by push_cast at hM ⊢; nlinarith)
    have hBe : q0 + ((b + 1 : ℕ) : ℚ) * s = q0 + (b : ℚ) * s + s := by
      push_cast
      ring
    have hCe : q0 + (((b + 1 : ℕ) : ℚ) + (k : ℚ)) * s =
        q0 + ((b : ℚ) + ((k + 1 : ℕ) : ℚ)) * s := by
      push_cast
      ring
    rw [hBe, hCe] at hsum2
    refine ⟨vol :: vols, st2, ?_, ?_, ?_, ?_⟩
    · simp only [binLoop, hstep, hloop]
    · simp [hlength]
    · rw [List.sum_cons, mul_add, hsum1, hsum2]
      refine (stepIntegral_add depth M _ _ _ (by linarith) ?_).symm
      push_cast
      nlinarith
    · rw [show b + (k + 1) = b + 1 + k from by omega]
      exact hinv2

theorem stepIntegral_span (depth : List Point) (q0 E : ℚ)
    (hlen : 0 < depth.length)
    (hq0 : (depth.getD 0 (0, 0)).1 = q0)
    (hmono : ∀ i j, i < j → j < depth.length →
      (depth.getD i (0, 0)).1 < (depth.getD j (0, 0)).1)
    (hlastE : (depth.getD (depth.length - 1) (0, 0)).1 ≤ E) :
    stepIntegral depth E q0 E =
      (∑ i ∈ Finset.range (depth.length - 1),
        (depth.getD i (0, 0)).2 *
          ((depth.getD (i + 1) (0, 0)).1 - (depth.getD i (0, 0)).1)) +
      (depth.getD (depth.length - 1) (0, 0)).2 *
        (E - (depth.getD (depth.length - 1) (0, 0)).1) := by
  have hq0le : ∀ i, i < depth.length → q0 ≤ (depth.getD i (0, 0)).1 := by
    intro i hi
    rw [← hq0]
    exact getD_le_of_mono depth hmono 0 i (by omega) hi
  unfold stepIntegral
  rw [show Finset.range depth.length =
      Finset.range ((depth.length - 1) + 1) from by
    rw [Nat.sub_add_cancel hlen]]
  rw [Finset.sum_range_succ]
  have hlast : (depth.getD (depth.length - 1) (0, 0)).2 *
      clip q0 E (depth.getD (depth.length - 1) (0, 0)).1
        (horizonAt depth E (depth.length - 1)) =
      (depth.getD (depth.length - 1) (0, 0)).2 *
        (E - (depth.getD (depth.length - 1) (0, 0)).1) := by
    have hH : horizonAt depth E (depth.length - 1) = E := by
      unfold horizonAt
      rw [if_neg (by omega)]
    rw [hH, clip_eq_sub _ _ _ _ (by
      rw [min_self, max_eq_right (hq0le _ (by omega))]
      exact hlastE)]
    rw [min_self, max_eq_right (hq0le _ (by omega))]
  rw [hlast]
  refine congrArg (· + _) (Finset.sum_congr rfl ?_)
  intro i hi
  have hi1 : i < depth.length - 1 := Finset.mem_range.mp hi
  have hH : horizonAt depth E i = (depth.getD (i + 1) (0, 0)).1 := by
    unfold horizonAt
    rw [if_pos (by omega)]
  have hle1 : (depth.getD (i + 1) (0, 0)).1 ≤
      (depth.getD (depth.length - 1) (0, 0)).1 :=
    getD_le_of_mono depth hmono (i + 1) (depth.length - 1) (by omega) (by omega)
  have hstrict := hmono i (i + 1) (by omega) (by omega)
  rw [hH, clip_eq_sub _ _ _ _ (by
    rw [min_eq_right (by linarith), max_eq_right (hq0le i (by omega))]
    linarith)]
  rw [min_eq_right (by linarith), max_eq_right (hq0le i (by omega))]

theorem priceIncreaseOf_ask : priceIncreaseOf ("ask") = some true := by
  with_unfolding_all rfl

theorem priceIncreaseOf_bid : priceIncreaseOf ("bid") = some false := by
  with_unfolding_all rfl

theorem discretize_ask_spec (depth : List Point) (s : ℚ) (hs : 0 < s)
    (hne : depth ≠ [])
    (hchain : List.Chain' (fun p q : Point => p.1 < q.1) depth) :
    ∃ bins, discretize ("ask") depth s none = .ok bins ∧
      bins.length = binCount depth s (depth.headD (0, 0)).1 ∧
      bins.sum = totalAccumulatedVolume depth s (coveredSpanEnd ("ask") depth s) := by
  obtain ⟨p0, rest, rfl⟩ : ∃ p0 rest, depth = p0 :: rest := by
    cases depth with
    | nil => exact absurd rfl hne
    | cons p0 rest => exact ⟨p0, rest, rfl⟩
  set depth := p0 :: rest with hdepth
  have hlen : 0 < depth.length := by simp [hdepth]
  have hq0 : (depth.getD 0 (0, 0)).1 = p0.1 := rfl
  have hmono := getD_lt_of_chain depth hchain
  have hlastnn : p0.1 ≤ (depth.getD (depth.length - 1) (0, 0)).1 := by
    rw [← hq0]
    exact getD_le_of_mono depth hmono 0 (depth.length - 1) (by omega) (by omega)
  have habs : |(depth.getLastD (0, 0)).1 - p0.1| =
      (depth.getD (depth.length - 1) (0, 0)).1 - p0.1 := by
    rw [getLastD_eq_getD]
    exact abs_of_nonneg (by linarith)
  have hfloornn : 0 ≤ ⌊((depth.getD (depth.length - 1) (0, 0)).1 - p0.1) / s⌋ := by
    apply Int.floor_nonneg.mpr
    exact div_nonneg (by linarith) hs.le
  have hNcast : ((binCount depth s p0.1 : ℕ) : ℚ) =
      ((⌊((depth.getD (depth.length - 1) (0, 0)).1 - p0.1) / s⌋ + 1 : ℤ) : ℚ) := by
    unfold binCount
    rw [habs]
    exact_mod_cast congrArg (fun z : ℤ => (z : ℚ))
      (Int.toNat_of_nonneg (by omega))
  have hlastlt : (depth.getD (depth.length - 1) (0, 0)).1 <
      p0.1 + (binCount depth s p0.1 : ℚ) * s := by
    have h1 := Int.lt_floor_add_one
      (((depth.getD (depth.length - 1) (0, 0)).1 - p0.1) / s)
    have h2 : ((depth.getD (depth.length - 1) (0, 0)).1 - p0.1) / s <
        ((binCount depth s p0.1 : ℕ) : ℚ) := by
      rw [hNcast]
      push_cast
      push_cast at h1
      linarith
    have h3 := (div_lt_iff₀ hs).mp h2
    linarith
  obtain ⟨vols, st', hloop, hlength, hsum, -⟩ :=
    binLoop_spec depth s (p0.1 + (binCount depth s p0.1 : ℚ) * s) p0.1 hs hlen
      hq0 hmono (binCount depth s p0.1) 0 none (Or.inl ⟨rfl, rfl⟩)
      (by push_cast; ring_nf; exact le_refl _)
  have he0 : p0.1 + (((0 : ℕ) : ℚ)) * s = p0.1 := by push_cast; ring
  have he1 : p0.1 + ((((0 : ℕ) : ℚ)) + ((binCount depth s p0.1 : ℕ) : ℚ)) * s =
      p0.1 + ((binCount depth s p0.1 : ℕ) : ℚ) * s := by push_cast; ring
  rw [he0, he1] at hsum
  have hE : coveredSpanEnd ("ask") depth s =
      p0.1 + ((binCount depth s p0.1 : ℕ) : ℚ) * s := by
    simp [coveredSpanEnd, priceIncreaseOf_ask, hdepth]
  refine ⟨vols, ?_, ?_, ?_⟩
  · simp only [hdepth, discretize, Option.getD_none, if_neg hs.ne',
      priceIncreaseOf_ask, hloop]
  · exact hlength
  · rw [stepIntegral_span depth p0.1 _ hlen hq0 hmono hlastlt.le] at hsum
    rw [hE]
    unfold totalAccumulatedVolume
    rw [getLastD_eq_getD]
    rw [abs_of_nonneg (by linarith :
      (0 : ℚ) ≤ p0.1 + ((binCount depth s p0.1 : ℕ) : ℚ) * s -
        (depth.getD (depth.length - 1) (0, 0)).1)]
    rw [Finset.sum_congr rfl (fun i hi => by
      have hi1 : i < depth.length - 1 := Finset.mem_range.mp hi
      have hstrict := hmono i (i + 1) (by omega) (by omega)
      rw [abs_of_nonneg (by linarith :
        (0 : ℚ) ≤ (depth.getD (i + 1) (0, 0)).1 - (depth.getD i (0, 0)).1)])]
    rw [eq_div_iff hs.ne', mul_comm]
    exact hsum

theorem getD_map_negPoint (depth : List Point) (i : ℕ) :
    (depth.map negPoint).getD i (0, 0) = negPoint (depth.getD i (0, 0)) := by
  rw [List.getD_eq_getElem?_getD, List.getD_eq_getElem?_getD, List.getElem?_map]
  cases depth[i]? with
  | none => simp [negPoint]
  | some p => simp [negPoint]

theorem headD_map_negPoint (depth : List Point) :
    (depth.map negPoint).headD (0, 0) = negPoint (depth.headD (0, 0)) := by
  cases depth with
  | nil => simp [negPoint]
  | cons p rest => rfl

theorem binPointIds_map_neg (depth : List Point) (x y : ℚ) :
    binPointIds true (depth.map negPoint) (-x) (-y) =
      binPointIds false depth x y := by
  simp only [binPointIds, reduceIte, List.length_map]
  refine List.filter_congr ?_
  intro i hi
  rw [getD_map_negPoint]
  simp only [negPoint]
  rw [decide_eq_decide]
  constructor
  · intro h
    exact ⟨by linarith [h.2], by linarith [h.1]⟩
  · intro h
    exact ⟨by linarith [h.2], by linarith [h.1]⟩

theorem binInner_map_neg (depth : List Point) (s : ℚ) :
    ∀ (k i : ℕ) (pp pv a : ℚ),
      binInner (depth.map negPoint) s i k (-pp, pv, a) =
        (-(binInner depth s i k (pp, pv, a)).1,
         (binInner depth s i k (pp, pv, a)).2.1,
         (binInner depth s i k (pp, pv, a)).2.2) := by
  intro k
  induction k with
  | zero => intro i pp pv a; rfl
  | succ k ih =>
    intro i pp pv a
    have hstep : binInner (depth.map negPoint) s i (k + 1) (-pp, pv, a) =
        binInner (depth.map negPoint) s (i + 1) k
          (-(depth.getD i (0, 0)).1, (depth.getD i (0, 0)).2,
           a + pv * (|(depth.getD i (0, 0)).1 - pp| / s)) := by
      show binInner (depth.map negPoint) s (i + 1) k
          (((depth.map negPoint).getD i (0, 0)).1,
           ((depth.map negPoint).getD i (0, 0)).2,
           a + pv * (|((depth.map negPoint).getD i (0, 0)).1 - -pp| / s)) = _
      rw [getD_map_negPoint]
      simp only [negPoint]
      rw [show -(depth.getD i (0, 0)).1 - -pp =
        -((depth.getD i (0, 0)).1 - pp) from by ring, abs_neg]
    rw [hstep, ih (i + 1) _ _ _]
    rfl

theorem binStep_map_neg (depth : List Point) (s start : ℚ) (st : Option Point)
    (b : ℕ) :
    binStep true (depth.map negPoint) s (-start) (st.map negPoint) b =
      Except.map (fun r : ℚ × Option Point => (r.1, r.2.map negPoint))
        (binStep false depth s start st b) := by
  have hids : binPointIds true (depth.map negPoint) (-start + b * s)
        (-start + b * s + s) =
      binPointIds false depth (start - b * s) (start - b * s - s) := by
    rw [show -start + (b : ℚ) * s = -(start - (b : ℚ) * s) from by ring,
      show -(start - (b : ℚ) * s) + s = -(start - (b : ℚ) * s - s) from by ring,
      binPointIds_map_neg]
  simp only [binStep, Bool.false_eq_true, if_false, reduceIte, hids]
  cases hmin : (binPointIds false depth (start - b * s) (start - b * s - s)).min?
    with
  | none =>
    cases st with
    | none => rfl
    | some pp =>
      simp only [Option.map_some']
      cases hmax : (binPointIds false depth (start - b * s)
          (start - b * s - s)).max? with
      | none =>
        simp only [negPoint, Except.map]
        rw [show -start + (b : ℚ) * s + s - (-start + (b : ℚ) * s) =
          -(start - (b : ℚ) * s - s - (start - (b : ℚ) * s)) from by ring,
          abs_neg]
        rfl
      | some last =>
        exact absurd hmax (by
          rw [List.max?_eq_none_iff.mpr (List.min?_eq_none_iff.mp hmin)]
          exact fun h => Option.noConfusion h)
  | some first =>
    cases hmax : (binPointIds false depth (start - b * s)
        (start - b * s - s)).max? with
    | none =>
      exact absurd hmin (by
        rw [List.min?_eq_none_iff.mpr (List.max?_eq_none_iff.mp hmax)]
        exact fun h => Option.noConfusion h)
    | some last =>
      by_cases hf : 1 ≤ first
      · simp only [hf, if_true, getD_map_negPoint, Except.map]
        simp only [negPoint]
        rw [show -start + (b : ℚ) * s = -(start - (b : ℚ) * s) from by ring]
        rw [binInner_map_neg depth s (last + 1 - first) first]
        rw [show |-(start - (b : ℚ) * s) + s -
            -(binInner depth s first (last + 1 - first)
              (start - (b : ℚ) * s, (depth.getD (first - 1) (0, 0)).2, 0)).1| =
          |start - (b : ℚ) * s - s -
            (binInner depth s first (last + 1 - first)
              (start - (b : ℚ) * s, (depth.getD (first - 1) (0, 0)).2, 0)).1|
          from by
          rw [show -(start - (b : ℚ) * s) + s -
              -(binInner depth s first (last + 1 - first)
                (start - (b : ℚ) * s, (depth.getD (first - 1) (0, 0)).2, 0)).1 =
            -(start - (b : ℚ) * s - s -
              (binInner depth s first (last + 1 - first)
                (start - (b : ℚ) * s,
                 (depth.getD (first - 1) (0, 0)).2, 0)).1) from by ring,
            abs_neg]]
        rfl
      · simp only [hf, if_false, getD_map_negPoint, Except.map]
        simp only [negPoint]
        rw [show -start + (b : ℚ) * s = -(start - (b : ℚ) * s) from by ring]
        rw [binInner_map_neg depth s (last + 1 - first) first]
        rw [show |-(start - (b : ℚ) * s) + s -
            -(binInner depth s first (last + 1 - first)
              (start - (b : ℚ) * s, 0, 0)).1| =
          |start - (b : ℚ) * s - s -
            (binInner depth s first (last + 1 - first)
              (start - (b : ℚ) * s, 0, 0)).1|
          from by
          rw [show -(start - (b : ℚ) * s) + s -
              -(binInner depth s first (last + 1 - first)
                (start - (b : ℚ) * s, 0, 0)).1 =
            -(start - (b : ℚ) * s - s -
              (binInner depth s first (last + 1 - first)
                (start - (b : ℚ) * s, 0, 0)).1) from by ring,
            abs_neg]]
        rfl

theorem binLoop_map_neg (depth : List Point) (s start : ℚ) :
    ∀ (k b : ℕ) (st : Option Point),
      binLoop true (depth.map negPoint) s (-start) b k (st.map negPoint) =
        Except.map (fun r : List ℚ × Option Point => (r.1, r.2.map negPoint))
          (binLoop false depth s start b k st) := by
  intro k
  induction k with
  | zero => intro b st; rfl
  | succ k ih =>
    intro b st
    simp only [binLoop, binStep_map_neg]
    cases hstep : binStep false depth s start st b with
    | error e => rfl
    | ok r =>
      obtain ⟨vol, st1⟩ := r
      simp only [Except.map, ih (b + 1) st1]
      cases hloop : binLoop false depth s start (b + 1) k st1 with
      | error e => rfl
      | ok r2 => rfl

theorem binCount_map_neg (depth : List Point) (s start : ℚ) :
    binCount (depth.map negPoint) s (-start) = binCount depth s start := by
  unfold binCount
  rw [getLastD_eq_getD, getLastD_eq_getD, List.length_map, getD_map_negPoint]
  simp only [negPoint]
  rw [show -(depth.getD (depth.length - 1) (0, 0)).1 - -start =
    -((depth.getD (depth.length - 1) (0, 0)).1 - start) from by ring, abs_neg]

theorem discretize_bid_mirror (depth : List Point) (s : ℚ) :
    discretize ("bid") depth s none =
      discretize ("ask") (depth.map negPoint) s none := by
  cases depth with
  | nil => rfl
  | cons p0 rest =>
    simp only [discretize, List.map_cons, Option.getD_none, priceIncreaseOf_ask,
      priceIncreaseOf_bid]
    by_cases h0 : s = 0
    · rw [if_pos h0, if_pos h0]
    · rw [if_neg h0, if_neg h0]
      have hstart : (negPoint p0).1 = -p0.1 := rfl
      have hcount : binCount (negPoint p0 :: List.map negPoint rest) s
          (negPoint p0).1 = binCount (p0 :: rest) s p0.1 := by
        rw [hstart, show (negPoint p0 :: List.map negPoint rest) =
          (p0 :: rest).map negPoint from rfl, binCount_map_neg]
      rw [hcount, hstart]
      have hloop := binLoop_map_neg (p0 :: rest) s p0.1
        (binCount (p0 :: rest) s p0.1) 0 none
      rw [show ((none : Option Point).map negPoint) = none from rfl] at hloop
      rw [show (negPoint p0 :: List.map negPoint rest) =
        (p0 :: rest).map negPoint from rfl, hloop]
      cases hres : binLoop false (p0 :: rest) s p0.1 0
          (binCount (p0 :: rest) s p0.1) none with
      | error e => rfl
      | ok r => rfl

theorem totalAccumulatedVolume_map_neg (depth : List Point) (s E : ℚ) :
    totalAccumulatedVolume (depth.map negPoint) s (-E) =
      totalAccumulatedVolume depth s E := by
  unfold totalAccumulatedVolume
  rw [getLastD_eq_getD, getLastD_eq_getD, List.length_map, getD_map_negPoint]
  simp only [negPoint, List.length_map]
  rw [show -E - -(depth.getD (depth.length - 1) (0, 0)).1 =
    -(E - (depth.getD (depth.length - 1) (0, 0)).1) from by ring, abs_neg]
  refine congrArg (· / s) (congrArg (· + _) (Finset.sum_congr rfl ?_))
  intro i _
  rw [getD_map_negPoint, getD_map_negPoint]
  simp only [negPoint]
  rw [show -(depth.getD (i + 1) (0, 0)).1 - -(depth.getD i (0, 0)).1 =
    -((depth.getD (i + 1) (0, 0)).1 - (depth.getD i (0, 0)).1) from by ring,
    abs_neg]

theorem coveredSpanEnd_map_neg (depth : List Point) (s : ℚ) :
    coveredSpanEnd ("ask") (depth.map negPoint) s =
      -coveredSpanEnd ("bid") depth s := by
  unfold coveredSpanEnd
  rw [priceIncreaseOf_ask, priceIncreaseOf_bid]
  rw [if_pos rfl, if_neg (by exact fun h => Option.noConfusion h (fun h' => Bool.noConfusion h'))]
  rw [headD_map_negPoint]
  simp only [negPoint]
  rw [binCount_map_neg]
  ring

/-- C1.  Area preservation of the Depth Discretizer: for every non-empty
curve of `(price, cumulative_volume)` points sorted in the side's direction
(ask strictly ascending, bid strictly descending) and every `bin_size > 0`,
`discretize` succeeds with the default start and the sum of the returned bin
volumes equals the total accumulated volume of the input step function over
the covered price span (exactly, over rational arithmetic), where the total
is measured by the specification's own interpolation rule
`previous_point_volume * (sub-interval width / bin_size)`. -/
theorem discretize_area_preservation (side : String) (depth : List Point)
    (s : ℚ) (hs : 0 < s) (hne : depth ≠ [])
    (hdir : (side = "ask" ∧
        List.Chain' (fun p q : Point => p.1 < q.1) depth) ∨
      (side = "bid" ∧
        List.Chain' (fun p q : Point => q.1 < p.1) depth)) :
    ∃ bins, discretize side depth s none = .ok bins ∧
      bins.sum = totalAccumulatedVolume depth s (coveredSpanEnd side depth s) := by
  rcases hdir with ⟨rfl, hchain⟩ | ⟨rfl, hchain⟩
  · obtain ⟨bins, h1, -, h3⟩ := discretize_ask_spec depth s hs hne hchain
    exact ⟨bins, h1, h3⟩
  · have hchain' : List.Chain'
        (fun p q : Point => p.1 < q.1) (depth.map negPoint) := by
      rw [List.chain'_map]
      exact hchain.imp (fun a b h => neg_lt_neg h)
    have hne' : depth.map negPoint ≠ [] := by
      cases depth with
      | nil => exact absurd rfl hne
      | cons p rest => exact fun h => List.noConfusion h
    obtain ⟨bins, h1, -, h3⟩ :=
      discretize_ask_spec (depth.map negPoint) s hs hne' hchain'
    refine ⟨bins, ?_, ?_⟩
    · rw [discretize_bid_mirror]
      exact h1
    · rw [h3, coveredSpanEnd_map_neg, totalAccumulatedVolume_map_neg]

/-- Witness for C1 at the specification's own example: the bid curve
`[(100,5),(99,5),(98,10)]` with `bin_size = 1`. -/
theorem discretize_area_preservation_witness :
    ∃ bins, discretize ("bid") [(100, 5), (99, 5), (98, 10)] 1 none =
        .ok bins ∧
      bins.sum = totalAccumulatedVolume [(100, 5), (99, 5), (98, 10)] 1
        (coveredSpanEnd ("bid") [(100, 5), (99, 5), (98, 10)] 1) :=
  discretize_area_preservation ("bid") [(100, 5), (99, 5), (98, 10)] 1
    (by norm_num) (by simp)
    (Or.inr ⟨rfl, by norm_num [List.chain'_cons, List.Chain']⟩)

/-- C2 counterexample.  On the ascending curve `[(100,5),(101,7)]` with
`bin_size = 1` and the default start, the span `|101 - 100| = 1` is an exact
non-zero multiple of `bin_size`, and `discretize` returns `2` bins while the
claimed formula `ceil(|last_price - start| / bin_size)` gives `1`. -/
theorem discretize_bin_count_counterexample :
    (discretize ("ask") [(100, 5), (101, 7)] 1 none).map List.length =
        .ok 2 ∧
      ⌈(|(101 : ℚ) - 100|) / 1⌉ = 1 :=
  ⟨by with_unfolding_all rfl, by norm_num⟩

/-- C2 as amended.  For every non-empty direction-sorted curve and every
`bin_size > 0`, the number of bins returned by `discretize` (default start)
equals `floor(|last_price - start| / bin_size) + 1` — which is at least `1`,
and equals `ceil(|last_price - start| / bin_size)` exactly when
`|last_price - start|` is not an exact multiple of `bin_size`; at an exact
multiple (the zero span included) it is that multiple plus one. -/
theorem discretize_bin_count (side : String) (depth : List Point)
    (s : ℚ) (hs : 0 < s) (hne : depth ≠ [])
    (hdir : (side = "ask" ∧
        List.Chain' (fun p q : Point => p.1 < q.1) depth) ∨
      (side = "bid" ∧
        List.Chain' (fun p q : Point => q.1 < p.1) depth)) :
    ∃ bins, discretize side depth s none = .ok bins ∧
      bins.length = (⌊|(depth.getLastD (0, 0)).1 -
        (depth.headD (0, 0)).1| / s⌋).toNat + 1 ∧
      1 ≤ bins.length := by
  have hcount : ∀ (d : List Point) (q0 : ℚ), binCount d s q0 =
      (⌊|(d.getLastD (0, 0)).1 - q0| / s⌋).toNat + 1 := by
    intro d q0
    unfold binCount
    have h1 : 0 ≤ ⌊|(d.getLastD (0, 0)).1 - q0| / s⌋ :=
      Int.floor_nonneg.mpr (div_nonneg (abs_nonneg _) hs.le)
    omega
  rcases hdir with ⟨rfl, hchain⟩ | ⟨rfl, hchain⟩
  · obtain ⟨bins, h1, h2, -⟩ := discretize_ask_spec depth s hs hne hchain
    refine ⟨bins, h1, ?_, ?_⟩
    · rw [h2, hcount]
    · rw [h2, hcount]
      omega
  · have hchain' : List.Chain'
        (fun p q : Point => p.1 < q.1) (depth.map negPoint) := by
      rw [List.chain'_map]
      exact hchain.imp (fun a b h => neg_lt_neg h)
    have hne' : depth.map negPoint ≠ [] := by
      cases depth with
      | nil => exact absurd rfl hne
      | cons p rest => exact fun h => List.noConfusion h
    obtain ⟨bins, h1, h2, -⟩ :=
      discretize_ask_spec (depth.map negPoint) s hs hne' hchain'
    have hcnt2 : binCount (depth.map negPoint) s
        ((depth.map negPoint).headD (0, 0)).1 =
        binCount depth s (depth.headD (0, 0)).1 := by
      rw [headD_map_negPoint]
      exact binCount_map_neg depth s (depth.headD (0, 0)).1
    refine ⟨bins, ?_, ?_, ?_⟩
    · rw [discretize_bid_mirror]
      exact h1
    · rw [h2, hcnt2, hcount, getLastD_eq_getD]
    · rw [h2, hcnt2, hcount]
      omega

/-- Witness for C2 as amended at the specification's example curve. -/
theorem discretize_bin_count_witness :
    ∃ bins, discretize ("bid") [(100, 5), (99, 5), (98, 10)] 1 none =
        .ok bins ∧
      bins.length = (⌊|((([(100, 5), (99, 5), (98, 10)] :
        List Point).getLastD (0, 0)).1 -
        (([(100, 5), (99, 5), (98, 10)] :
        List Point).headD (0, 0)).1)| / 1⌋).toNat + 1 ∧
      1 ≤ bins.length :=
  discretize_bin_count ("bid") [(100, 5), (99, 5), (98, 10)] 1
    (by norm_num) (by simp)
    (Or.inr ⟨rfl, by norm_num [List.chain'_cons, List.Chain']⟩)

/-! ## C5 development: run structure of the interval ids -/

theorem cumsumFrom_shift (c : ℤ) :
    ∀ (ds : List ℤ) (a : ℤ),
      cumsumFrom (a + c) ds = (cumsumFrom a ds).map (fun z => z + c) := by
  intro ds
  induction ds with
  | nil => intro a; rfl
  | cons d ds ih =>
      intro a
      simp only [cumsumFrom, List.map_cons]
      rw [show a + c + d = a + d + c by ring, ih (a + d)]

theorem cumsumFrom_one (Z : List ℤ) :
    cumsumFrom 1 Z = (cumsumFrom 0 Z).map (fun z => z + 1) := by
  have h := cumsumFrom_shift 1 Z 0
  rwa [zero_add] at h

theorem ids_runSplit :
    ∀ (ls : List Bool) (l : Bool),
      cumsum (labelDiff (l :: ls)) =
        List.replicate ((ls.takeWhile (fun b => b == l)).length + 1) 0 ++
          (cumsum (labelDiff (ls.dropWhile (fun b => b == l)))).map
            (fun z => z + 1) := by
  intro ls
  induction ls with
  | nil => intro l; rfl
  | cons l' ls ih =>
      intro l
      by_cases h : (l' == l) = true
      · have hl : l' = l := eq_of_beq h
        subst hl
        have hstep : cumsum (labelDiff (l' :: l' :: ls)) =
            0 :: cumsum (labelDiff (l' :: ls)) := by
          simp only [labelDiff, List.zipWith_cons_cons, beq_self_eq_true,
            reduceIte, cumsum, cumsumFrom, add_zero, zero_add]
        have htw : (l' :: ls).takeWhile (fun b => b == l') =
            l' :: ls.takeWhile (fun b => b == l') :=
          List.takeWhile_cons_of_pos (by simp)
        have hdw : (l' :: ls).dropWhile (fun b => b == l') =
            ls.dropWhile (fun b => b == l') :=
          List.dropWhile_cons_of_pos (by simp)
        rw [hstep, ih l', htw, hdw]
        simp only [List.length_cons, List.replicate_succ, List.cons_append]
      · have h' : (l' == l) = false := by simpa using h
        have hll' : (l == l') = false := by
          cases l <;> cases l' <;> simp_all
        have hstep : cumsum (labelDiff (l :: l' :: ls)) =
            0 :: 1 :: cumsumFrom 1 (List.zipWith
              (fun prev cur => if prev == cur then (0 : ℤ) else 1)
              (l' :: ls) ls) := by
          simp only [labelDiff, List.zipWith_cons_cons, hll', Bool.false_eq_true,
            if_false, cumsum, cumsumFrom, add_zero, zero_add]
        have hrest : cumsum (labelDiff (l' :: ls)) =
            0 :: cumsumFrom 0 (List.zipWith
              (fun prev cur => if prev == cur then (0 : ℤ) else 1)
              (l' :: ls) ls) := by
          simp only [labelDiff, cumsum, cumsumFrom, add_zero, zero_add]
        have htw : (l' :: ls).takeWhile (fun b => b == l) = [] :=
          List.takeWhile_cons_of_neg (by simp [h'])
        have hdw : (l' :: ls).dropWhile (fun b => b == l) = l' :: ls :=
          List.dropWhile_cons_of_neg (by simp [h'])
        rw [hstep, htw, hdw, hrest]
        simp only [List.length_nil, zero_add, List.replicate_succ,
          List.replicate_zero, List.map_cons, List.cons_append,
          List.nil_append, cumsumFrom_one]

theorem zipWith_boolDiff_mem_nonneg :
    ∀ (bs cs : List Bool) (d : ℤ),
      d ∈ List.zipWith
        (fun prev cur => if prev == cur then (0 : ℤ) else 1) bs cs →
      0 ≤ d := by
  intro bs
  induction bs with
  | nil => intro cs d hd; simp at hd
  | cons b bs ih =>
      intro cs d hd
      cases cs with
      | nil => simp at hd
      | cons c cs =>
          simp only [List.zipWith_cons_cons, List.mem_cons] at hd
          rcases hd with hd | hd
          · subst hd; split <;> omega
          · exact ih cs d hd

theorem labelDiff_mem_nonneg (labels : List Bool) :
    ∀ d ∈ labelDiff labels, 0 ≤ d := by
  intro d hd
  match labels with
  | [] => simp [labelDiff] at hd
  | l0 :: rest =>
      simp only [labelDiff, List.mem_cons] at hd
      rcases hd with hd | hd
      · omega
      · exact zipWith_boolDiff_mem_nonneg (l0 :: rest) rest d hd

theorem cumsumFrom_mem_le :
    ∀ (ds : List ℤ) (a : ℤ), (∀ d ∈ ds, 0 ≤ d) → ∀ z ∈ cumsumFrom a ds, a ≤ z := by
  intro ds
  induction ds with
  | nil => intro a _ z hz; simp [cumsumFrom] at hz
  | cons d ds ih =>
      intro a hd z hz
      have hd0 : 0 ≤ d := hd d (by simp)
      simp only [cumsumFrom, List.mem_cons] at hz
      rcases hz with hz | hz
      · omega
      · have h1 : a + d ≤ z :=
          ih (a + d) (fun e he => hd e (by simp [he])) z hz
        omega

theorem ids_nonneg (labels : List Bool) :
    ∀ z ∈ cumsum (labelDiff labels), 0 ≤ z :=
  cumsumFrom_mem_le (labelDiff labels) 0 (labelDiff_mem_nonneg labels)

/-! ## C5 development: sorted distinct group keys -/

theorem mem_insertSorted (x a : ℤ) :
    ∀ (ys : List ℤ), a ∈ insertSorted x ys ↔ a = x ∨ a ∈ ys := by
  intro ys
  induction ys with
  | nil => simp [insertSorted]
  | cons y ys ih =>
      simp only [insertSorted]
      split
      · simp only [List.mem_cons]
      · simp only [List.mem_cons, ih]
        tauto

theorem sorted_insertSorted (x : ℤ) :
    ∀ (ys : List ℤ), ys.Sorted (· ≤ ·) → (insertSorted x ys).Sorted (· ≤ ·) := by
  intro ys
  induction ys with
  | nil => intro _; simp [insertSorted]
  | cons y ys ih =>
      intro hs
      rw [List.sorted_cons] at hs
      obtain ⟨hy, hys⟩ := hs
      simp only [insertSorted]
      split
      · rename_i hxy
        rw [List.sorted_cons]
        refine ⟨?_, ?_⟩
        · intro b hb
          rcases List.mem_cons.mp hb with rfl | hb
          · exact hxy
          · exact le_trans hxy (hy b hb)
        · rw [List.sorted_cons]
          exact ⟨hy, hys⟩
      · rename_i hxy
        rw [List.sorted_cons]
        refine ⟨?_, ih hys⟩
        intro b hb
        rcases (mem_insertSorted x b ys).mp hb with rfl | hb
        · omega
        · exact hy b hb

theorem sortKeys_sorted : ∀ (xs : List ℤ), (sortKeys xs).Sorted (· ≤ ·) := by
  intro xs
  induction xs with
  | nil => simp [sortKeys]
  | cons x xs ih => exact sorted_insertSorted x _ ih

theorem mem_sortKeys (a : ℤ) : ∀ (xs : List ℤ), a ∈ sortKeys xs ↔ a ∈ xs := by
  intro xs
  induction xs with
  | nil => simp [sortKeys]
  | cons x xs ih =>
      simp only [sortKeys, mem_insertSorted, ih, List.mem_cons]

theorem nodup_insertSorted (x : ℤ) :
    ∀ (ys : List ℤ), ys.Nodup → x ∉ ys → (insertSorted x ys).Nodup := by
  intro ys
  induction ys with
  | nil => intro _ _; simp [insertSorted]
  | cons y ys ih =>
      intro hnd hx
      rw [List.nodup_cons] at hnd
      obtain ⟨hy, hys⟩ := hnd
      simp only [insertSorted]
      split
      · rw [List.nodup_cons, List.nodup_cons]
        refine ⟨?_, hy, hys⟩
        intro hmem
        exact hx hmem
      · rw [List.nodup_cons]
        refine ⟨?_, ih hys (fun hm => hx (List.mem_cons.mpr (Or.inr hm)))⟩
        intro hmem
        rcases (mem_insertSorted x y ys).mp hmem with h | h
        · exact hx (by simp [h])
        · exact hy h

theorem sortKeys_nodup : ∀ (xs : List ℤ), xs.Nodup → (sortKeys xs).Nodup := by
  intro xs
  induction xs with
  | nil => intro _; simp [sortKeys]
  | cons x xs ih =>
      intro h
      rw [List.nodup_cons] at h
      exact nodup_insertSorted x _ (ih h.2)
        (fun hm => h.1 ((mem_sortKeys x xs).mp hm))

theorem mem_dedup' : ∀ (xs : List ℤ) (a : ℤ), a ∈ dedup' xs ↔ a ∈ xs := by
  intro xs
  induction xs with
  | nil => simp [dedup']
  | cons x xs ih =>
      intro a
      simp only [dedup']
      split
      · rename_i hmem
        rw [ih a, List.mem_cons]
        refine ⟨Or.inr, ?_⟩
        rintro (rfl | h)
        · exact (ih a).mp hmem
        · exact h
      · simp only [List.mem_cons, ih a]

theorem dedup'_nodup : ∀ (xs : List ℤ), (dedup' xs).Nodup := by
  intro xs
  induction xs with
  | nil => simp [dedup']
  | cons x xs ih =>
      simp only [dedup']
      split
      · exact ih
      · rename_i hmem
        exact List.nodup_cons.mpr ⟨hmem, ih⟩

theorem keys_runSplit (k : ℕ) (ids2 : List ℤ) (hpos : ∀ z ∈ ids2, 0 ≤ z) :
    sortKeys (dedup' (List.replicate (k + 1) 0 ++ ids2.map (fun z => z + 1))) =
      0 :: (sortKeys (dedup' ids2)).map (fun z => z + 1) := by
  have hmemL : ∀ a : ℤ,
      a ∈ sortKeys (dedup'
          (List.replicate (k + 1) 0 ++ ids2.map (fun z => z + 1))) ↔
        (a = 0 ∨ a ∈ ids2.map (fun z => z + 1)) := by
    intro a
    rw [mem_sortKeys, mem_dedup', List.mem_append, List.mem_replicate]
    constructor
    · rintro (⟨_, rfl⟩ | h)
      · exact Or.inl rfl
      · exact Or.inr h
    · rintro (rfl | h)
      · exact Or.inl ⟨k.succ_ne_zero, rfl⟩
      · exact Or.inr h
  have hmemR : ∀ a : ℤ,
      a ∈ 0 :: (sortKeys (dedup' ids2)).map (fun z => z + 1) ↔
        (a = 0 ∨ a ∈ ids2.map (fun z => z + 1)) := by
    intro a
    simp only [List.mem_cons, List.mem_map, mem_sortKeys, mem_dedup']
  have hmapPos : ∀ b ∈ (sortKeys (dedup' ids2)).map (fun z => z + 1), 0 ≤ b := by
    intro b hb
    obtain ⟨z, hz, he⟩ := List.mem_map.mp hb
    have h0 : 0 ≤ z := hpos z ((mem_dedup' ids2 z).mp ((mem_sortKeys z _).mp hz))
    omega
  have hLs : (sortKeys (dedup'
      (List.replicate (k + 1) 0 ++ ids2.map (fun z => z + 1)))).Sorted (· ≤ ·) :=
    sortKeys_sorted _
  have hLnd : (sortKeys (dedup'
      (List.replicate (k + 1) 0 ++ ids2.map (fun z => z + 1)))).Nodup :=
    sortKeys_nodup _ (dedup'_nodup _)
  have hRnd : (0 :: (sortKeys (dedup' ids2)).map (fun z => z + 1)).Nodup := by
    rw [List.nodup_cons]
    refine ⟨?_, List.Nodup.map (add_left_injective 1)
      (sortKeys_nodup _ (dedup'_nodup _))⟩
    intro hm
    obtain ⟨z, hz, he⟩ := List.mem_map.mp hm
    have h0 : 0 ≤ z := hpos z ((mem_dedup' ids2 z).mp ((mem_sortKeys z _).mp hz))
    omega
  have hRs : (0 :: (sortKeys (dedup' ids2)).map (fun z => z + 1)).Sorted (· ≤ ·) := by
    rw [List.sorted_cons]
    refine ⟨hmapPos, ?_⟩
    exact List.Pairwise.map (fun z => z + 1) (fun a b hab => by dsimp only; omega)
      (sortKeys_sorted (dedup' ids2))
  have hperm := (List.perm_ext_iff_of_nodup hLnd hRnd).mpr
    (fun a => (hmemL a).trans (hmemR a).symm)
  exact List.eq_of_perm_of_sorted hperm hLs hRs

/-! ## C5 development: row structure helpers -/

theorem mem_zipWith_pair {α β : Type} :
    ∀ (as : List α) (bs : List β) (r : α × β),
      r ∈ List.zipWith (fun a b => (a, b)) as bs → r.1 ∈ as ∧ r.2 ∈ bs := by
  intro as
  induction as with
  | nil => intro bs r hr; simp at hr
  | cons a as ih =>
      intro bs r hr
      cases bs with
      | nil => simp at hr
      | cons b bs =>
          simp only [List.zipWith_cons_cons, List.mem_cons] at hr
          rcases hr with rfl | hr
          · exact ⟨by simp, by simp⟩
          · obtain ⟨h1, h2⟩ := ih bs r hr
            exact ⟨List.mem_cons.mpr (Or.inr h1), List.mem_cons.mpr (Or.inr h2)⟩

theorem zipWith_pair_replicate {α β : Type} (c : α) :
    ∀ (l : List β),
      List.zipWith (fun i p => (i, p)) (List.replicate l.length c) l =
        l.map (fun p => (c, p)) := by
  intro l
  induction l with
  | nil => rfl
  | cons x l ih =>
      simp only [List.length_cons, List.replicate_succ, List.zipWith_cons_cons,
        List.map_cons, ih]

theorem zipWith_pair_shiftIds {β : Type} :
    ∀ (is : List ℤ) (ps : List β),
      List.zipWith (fun i p => (i, p)) (is.map (fun z => z + 1)) ps =
        (List.zipWith (fun i p => (i, p)) is ps).map
          (fun r => (r.1 + 1, r.2)) := by
  intro is
  induction is with
  | nil => intro ps; rfl
  | cons i is ih =>
      intro ps
      cases ps with
      | nil => rfl
      | cons p ps =>
          simp only [List.map_cons, List.zipWith_cons_cons, ih]

theorem any_map' {α β : Type} (f : α → β) (p : β → Bool) :
    ∀ (l : List α), (l.map f).any p = l.any (fun a => p (f a)) := by
  intro l
  induction l with
  | nil => rfl
  | cons a l ih => simp only [List.map_cons, List.any_cons, ih]

theorem zipWith_pair_any_snd {α : Type} :
    ∀ (as : List α) (bs : List Bool), as.length = bs.length →
      (List.zipWith (fun a b => (a, b)) as bs).any (fun r => r.2) =
        bs.any (fun b => b) := by
  intro as
  induction as with
  | nil =>
      intro bs h
      cases bs with
      | nil => rfl
      | cons b bs => simp at h
  | cons a as ih =>
      intro bs h
      cases bs with
      | nil => simp at h
      | cons b bs =>
          simp only [List.zipWith_cons_cons, List.any_cons]
          rw [ih bs (by simpa using h)]

/-! ## C5 development: unfolding the run decomposition -/

theorem intervalRunsSpec_nil_labels (t : ℚ) (id : ℤ) (xs : List ℚ) :
    intervalRunsSpec t id [] xs = [] := by
  simp [intervalRunsSpec]

theorem intervalRunsSpec_nil_scores (t : ℚ) (id : ℤ) (ls : List Bool) :
    intervalRunsSpec t id ls [] = [] := by
  cases ls <;> simp [intervalRunsSpec]

theorem intervalRunsSpec_cons (t : ℚ) (id : ℤ) (l : Bool) (ls : List Bool)
    (x : ℚ) (xs : List ℚ) :
    intervalRunsSpec t id (l :: ls) (x :: xs) =
      (id, l,
        decide (t ≤ x) ||
          (xs.take (ls.takeWhile (fun b => b == l)).length).any
            (fun y => decide (t ≤ y))) ::
        intervalRunsSpec t (id + 1) (ls.dropWhile (fun b => b == l))
          (xs.drop (ls.takeWhile (fun b => b == l)).length) := by
  simp [intervalRunsSpec]

theorem intervalRunsSpec_shift (t : ℚ) :
    ∀ (n : ℕ) (ls : List Bool) (xs : List ℚ) (id : ℤ), ls.length ≤ n →
      intervalRunsSpec t (id + 1) ls xs =
        (intervalRunsSpec t id ls xs).map (fun r => (r.1 + 1, r.2)) := by
  intro n
  induction n with
  | zero =>
      intro ls xs id h
      have hnil : ls = [] := List.length_eq_zero.mp (Nat.le_zero.mp h)
      subst hnil
      simp [intervalRunsSpec_nil_labels]
  | succ n ihn =>
      intro ls xs id h
      match ls, xs with
      | [], _ => simp [intervalRunsSpec_nil_labels]
      | l :: ls', [] => simp [intervalRunsSpec_nil_scores]
      | l :: ls', x :: xs' =>
          rw [intervalRunsSpec_cons, intervalRunsSpec_cons, List.map_cons]
          refine congrArg₂ _ rfl ?_
          exact ihn _ _ (id + 1)
            (le_trans (List.dropWhile_sublist _).length_le (by simpa using h))

theorem any_fst_of_const {β : Type} (l : Bool) (g : β) (T : List (Bool × β))
    (hT : ∀ p ∈ T, p.1 = l) : ((l, g) :: T).any (fun r => r.1) = l := by
  cases l
  · simp only [List.any_cons, Bool.false_or]
    rw [List.any_eq_false]
    intro p hp
    simp [hT p hp]
  · simp [List.any_cons]

theorem find_interval_precision_cons (l : Bool) (ls : List Bool) (x : ℚ)
    (xs : List ℚ) (t : ℚ) (hlen : ls.length = xs.length) :
    find_interval_precision (l :: ls) (x :: xs) t =
      ((0 : ℤ), l, decide (t ≤ x) || (xs.take (ls.takeWhile (fun b => b == l)).length).any (fun y => decide (t ≤ y))) ::
        (find_interval_precision (ls.dropWhile (fun b => b == l)) (xs.drop (ls.takeWhile (fun b => b == l)).length) t).map
          (fun r => (r.1 + 1, r.2)) := by
  have hk : (ls.takeWhile (fun b => b == l)).length ≤ xs.length :=
    hlen ▸ (List.takeWhile_sublist _).length_le
  have hlenTake : (ls.takeWhile (fun b => b == l)).length = ((xs.take (ls.takeWhile (fun b => b == l)).length).map (fun y => decide (t ≤ y))).length := by
    rw [List.length_map, List.length_take]
    omega
  have hzl : List.zipWith (fun a g => (a, g)) ls (xs.map (fun y => decide (t ≤ y))) =
      (List.zipWith (fun a g => (a, g)) (ls.takeWhile (fun b => b == l)) ((xs.take (ls.takeWhile (fun b => b == l)).length).map (fun y => decide (t ≤ y)))) ++ (List.zipWith (fun a g => (a, g)) (ls.dropWhile (fun b => b == l)) ((xs.drop (ls.takeWhile (fun b => b == l)).length).map (fun y => decide (t ≤ y)))) := by
    conv_lhs => rw [← List.takeWhile_append_dropWhile (fun b => b == l) ls,
      ← List.take_append_drop ((ls.takeWhile (fun b => b == l)).length) xs]
    rw [List.map_append, List.zipWith_append _ _ _ _ _ hlenTake]
  have hlen2 : (ls.takeWhile (fun b => b == l)).length + 1 = ((l, decide (t ≤ x)) :: List.zipWith (fun a g => (a, g)) (ls.takeWhile (fun b => b == l)) ((xs.take (ls.takeWhile (fun b => b == l)).length).map (fun y => decide (t ≤ y)))).length := by
    simp only [List.length_cons, List.length_zipWith, List.length_map,
      List.length_take]
    omega
  simp only [find_interval_precision, List.map_cons, List.zipWith_cons_cons]
  rw [ids_runSplit ls l]
  rw [keys_runSplit _ _ (ids_nonneg _)]
  rw [hzl, ← List.cons_append]
  rw [List.zipWith_append _ _ _ _ _ (by rw [List.length_replicate]; exact hlen2)]
  rw [hlen2, zipWith_pair_replicate, zipWith_pair_shiftIds]
  rw [List.map_cons]
  congr 1
  · -- the key-0 row is the first run's row
    have hfa : List.filter (fun r => decide (r.1 = (0 : ℤ)))
        (List.map (fun p => ((0 : ℤ), p)) ((l, decide (t ≤ x)) :: List.zipWith (fun a g => (a, g)) (ls.takeWhile (fun b => b == l)) ((xs.take (ls.takeWhile (fun b => b == l)).length).map (fun y => decide (t ≤ y))))) =
        List.map (fun p => ((0 : ℤ), p)) ((l, decide (t ≤ x)) :: List.zipWith (fun a g => (a, g)) (ls.takeWhile (fun b => b == l)) ((xs.take (ls.takeWhile (fun b => b == l)).length).map (fun y => decide (t ≤ y)))) := by
      apply List.filter_eq_self.mpr
      intro r hr
      obtain ⟨p, hp, rfl⟩ := List.mem_map.mp hr
      simp
    have hfb : List.filter (fun r => decide (r.1 = (0 : ℤ)))
        (List.map (fun r => (r.1 + 1, r.2)) (List.zipWith (fun i p => (i, p)) (cumsum (labelDiff (ls.dropWhile (fun b => b == l)))) (List.zipWith (fun a g => (a, g)) (ls.dropWhile (fun b => b == l)) ((xs.drop (ls.takeWhile (fun b => b == l)).length).map (fun y => decide (t ≤ y)))))) = [] := by
      apply List.filter_eq_nil_iff.mpr
      intro r hr
      obtain ⟨r', hr', rfl⟩ := List.mem_map.mp hr
      have h0 : 0 ≤ r'.1 := ids_nonneg _ r'.1 (mem_zipWith_pair _ _ r' hr').1
      simp only [decide_eq_true_eq]
      omega
    have hconst : ∀ p ∈ (List.zipWith (fun a g => (a, g)) (ls.takeWhile (fun b => b == l)) ((xs.take (ls.takeWhile (fun b => b == l)).length).map (fun y => decide (t ≤ y)))), p.1 = l := by
      intro p hp
      have h1 := (mem_zipWith_pair _ _ p hp).1
      have h2 := List.mem_takeWhile_imp h1
      exact eq_of_beq h2
    simp only [List.filter_append, hfa, hfb, List.append_nil, any_map']
    rw [any_fst_of_const l (decide (t ≤ x)) _ hconst]
    simp only [List.any_cons, zipWith_pair_any_snd _ _ hlenTake, any_map']
  · -- later keys are the later runs' rows, shifted by one
    rw [List.map_map, List.map_map]
    apply List.map_congr_left
    intro z hz
    have hz0 : 0 ≤ z :=
      ids_nonneg _ z ((mem_dedup' _ z).mp ((mem_sortKeys z _).mp hz))
    have hga : List.filter (fun r => decide (r.1 = z + 1))
        (List.map (fun p => ((0 : ℤ), p)) ((l, decide (t ≤ x)) :: List.zipWith (fun a g => (a, g)) (ls.takeWhile (fun b => b == l)) ((xs.take (ls.takeWhile (fun b => b == l)).length).map (fun y => decide (t ≤ y))))) = [] := by
      apply List.filter_eq_nil_iff.mpr
      intro r hr
      obtain ⟨p, hp, rfl⟩ := List.mem_map.mp hr
      simp only [decide_eq_true_eq]
      omega
    have hgb : List.filter (fun r => decide (r.1 = z + 1))
        (List.map (fun r => (r.1 + 1, r.2)) (List.zipWith (fun i p => (i, p)) (cumsum (labelDiff (ls.dropWhile (fun b => b == l)))) (List.zipWith (fun a g => (a, g)) (ls.dropWhile (fun b => b == l)) ((xs.drop (ls.takeWhile (fun b => b == l)).length).map (fun y => decide (t ≤ y)))))) =
        List.map (fun r => (r.1 + 1, r.2))
          (List.filter (fun r => decide (r.1 = z)) (List.zipWith (fun i p => (i, p)) (cumsum (labelDiff (ls.dropWhile (fun b => b == l)))) (List.zipWith (fun a g => (a, g)) (ls.dropWhile (fun b => b == l)) ((xs.drop (ls.takeWhile (fun b => b == l)).length).map (fun y => decide (t ≤ y)))))) := by
      rw [List.filter_map]
      congr 1
      apply List.filter_congr
      intro r hr
      simp only [Function.comp_apply, decide_eq_decide]
      omega
    simp only [Function.comp_apply, List.filter_append, hga, hgb,
      List.nil_append, any_map']

theorem find_runs_aux :
    ∀ (n : ℕ) (labels : List Bool) (scores : List ℚ) (t : ℚ),
      labels.length ≤ n → labels.length = scores.length →
      find_interval_precision labels scores t =
        intervalRunsSpec t 0 labels scores := by
  intro n
  induction n with
  | zero =>
      intro labels scores t hn _
      have h0 : labels = [] := List.length_eq_zero.mp (Nat.le_zero.mp hn)
      subst h0
      rw [intervalRunsSpec_nil_labels]
      rfl
  | succ n ihn =>
      intro labels scores t hn hlen
      match labels, scores with
      | [], _ =>
          rw [intervalRunsSpec_nil_labels]
          rfl
      | l :: ls, [] => simp at hlen
      | l :: ls, x :: xs =>
          have hlen' : ls.length = xs.length := by simpa using hlen
          have hrlen : (ls.dropWhile (fun b => b == l)).length =
              (xs.drop (ls.takeWhile (fun b => b == l)).length).length := by
            have hsplit := congrArg List.length
              (List.takeWhile_append_dropWhile (fun b => b == l) ls)
            rw [List.length_append] at hsplit
            rw [List.length_drop]
            omega
          rw [find_interval_precision_cons l ls x xs t hlen']
          rw [ihn _ _ t (le_trans (List.dropWhile_sublist _).length_le
            (by simpa using hn)) hrlen]
          rw [intervalRunsSpec_cons]
          rw [intervalRunsSpec_shift t
            (ls.dropWhile (fun b => b == l)).length _ _ 0 le_rfl]

/-- C5.  `find_interval_precision` returns exactly one row per maximal run of
identical label values: on any non-empty label column with one score per
point, the returned rows are precisely the claim's run decomposition
`intervalRunsSpec` — interval ids strictly increasing from `0` (the first
run counted as no change), each interval's label the run's label value, and
each interval's score true iff at least one point of the run has score
`≥ threshold`.  Under pandas' XOR semantics for bool-column `diff()`, the
`diff().cumsum()` ids increase by exactly one at every label change, so the
groupby merges nothing and drops nothing. -/
theorem find_interval_precision_runs (labels : List Bool) (scores : List ℚ)
    (t : ℚ) (_hne : labels ≠ []) (hlen : labels.length = scores.length) :
    find_interval_precision labels scores t =
      intervalRunsSpec t 0 labels scores :=
  find_runs_aux labels.length labels scores t le_rfl hlen

/-- C5 witness: at the specification's own example — labels `[T,T,F,F,T]`,
scores `[0.9,0.2,0.1,0.1,0.9]`, threshold `0.5` — the code output equals the
run decomposition, and both are exactly the three claimed intervals
`(0,T,T), (1,F,F), (2,T,T)`. -/
theorem find_interval_precision_runs_witness :
    find_interval_precision [true, true, false, false, true]
        [9/10, 2/10, 1/10, 1/10, 9/10] (1/2) =
      intervalRunsSpec (1/2) 0 [true, true, false, false, true]
        [9/10, 2/10, 1/10, 1/10, 9/10] ∧
    find_interval_precision [true, true, false, false, true]
        [9/10, 2/10, 1/10, 1/10, 9/10] (1/2) =
      [(0, true, true), (1, false, false), (2, true, true)] :=
  ⟨find_interval_precision_runs _ _ _ (by decide) rfl,
    by with_unfolding_all rfl⟩
